import Mathlib

/-!
Shallow embedding of the PyAutoArray inversion core: regularization-matrix
builders (`regularization_util.py`), the Cholesky/determinant accessors of
`InversionMatrices` (`matrices.py`), and the neighbor-topology utilities
(`pixelization_util.py`).  Matrices produced by numpy code are embedded as
total functions `ℕ → ℕ → ℚ` (entries outside the allocated shape are never
written and stay at their initial value), and every imperative loop of the
source is embedded as a fold applying the same updates in program order.
-/

namespace AutoArray

/-- A dense 2D float array, embedded as a total function on indices with
exact rational entries. -/
def Mat : Type := ℕ → ℕ → ℚ

/-- The all-zeros array `np.zeros`. -/
def zeroMat : Mat := fun _ _ => 0

/-- A single in-place accumulation `M[a, b] += v`, as performed by the
numba loops of `regularization_util.py`. -/
def addCell (M : Mat) (u : ℕ × ℕ × ℚ) : Mat :=
  fun x y => if x = u.1 ∧ y = u.2.1 then M x y + u.2.2 else M x y

/-- Apply a list of accumulations `M[a, b] += v` in order. -/
def applyAdds (M : Mat) (l : List (ℕ × ℕ × ℚ)) : Mat :=
  l.foldl addCell M

/-- The diagonal floor `1e-8` added by both regularization schemes. -/
def floorQ : ℚ := 1 / 100000000

theorem applyAdds_nil (M : Mat) : applyAdds M [] = M := rfl

theorem applyAdds_cons (M : Mat) (u : ℕ × ℕ × ℚ) (l : List (ℕ × ℕ × ℚ)) :
    applyAdds M (u :: l) = applyAdds (addCell M u) l := rfl

theorem applyAdds_append (M : Mat) (l₁ l₂ : List (ℕ × ℕ × ℚ)) :
    applyAdds M (l₁ ++ l₂) = applyAdds (applyAdds M l₁) l₂ :=
  List.foldl_append ..

/-- The value of a cell after a sequence of accumulations is the initial
value plus the sum of all contributions targeting that cell. -/
theorem applyAdds_apply (l : List (ℕ × ℕ × ℚ)) (M : Mat) (a b : ℕ) :
    applyAdds M l a b =
      M a b + ((l.filter (fun u => u.1 = a ∧ u.2.1 = b)).map (fun u => u.2.2)).sum := by
  induction l generalizing M with
  | nil => simp [applyAdds]
  | cons u t ih =>
    rw [applyAdds_cons, ih]
    by_cases h : u.1 = a ∧ u.2.1 = b
    · simp [addCell, h.1, h.2, List.filter_cons, h]
      ring
    · have : ¬(a = u.1 ∧ b = u.2.1) := by
        intro hc
        exact h ⟨hc.1.symm, hc.2.symm⟩
      simp [addCell, List.filter_cons, h, this]

/-- Two permuted accumulation lists produce the same array. -/
theorem applyAdds_perm {l₁ l₂ : List (ℕ × ℕ × ℚ)} (h : l₁.Perm l₂) (M : Mat) :
    applyAdds M l₁ = applyAdds M l₂ := by
  funext a b
  rw [applyAdds_apply, applyAdds_apply]
  have hf := h.filter (fun u => u.1 = a ∧ u.2.1 = b)
  rw [(hf.map (fun u => u.2.2)).sum_eq]

/-- Interleaved per-element updates are a permutation of the grouped form:
emitting `a i` then `b i` for each `i` is a rearrangement of emitting every
`a i` first and every `b i` afterwards. -/
theorem flatMap_cons_perm {α β : Type} (a : α → β) (b : α → List β) (l : List α) :
    (l.flatMap (fun i => a i :: b i)).Perm (l.map a ++ l.flatMap b) := by
  induction l with
  | nil => simp
  | cons x xs ih =>
    simp only [List.flatMap_cons, List.map_cons, List.cons_append]
    refine List.Perm.cons _ ?_
    refine List.Perm.trans (List.Perm.append_left (b x) ih) ?_
    rw [← List.append_assoc, ← List.append_assoc]
    exact List.Perm.append_right _ List.perm_append_comm

/-- Embedding of `constant_regularization_matrix_from`
(`regularization_util.py`, lines 60-101): starting from
`np.zeros((pixels, pixels))`, for each pixel `i` the loop adds the `1e-8`
diagonal floor and then, for each `j < pixel_neighbors_sizes[i]`, adds
`coefficient ** 2` to `[i, i]` and subtracts it from
`[i, pixel_neighbors[i, j]]`. -/
def constant_regularization_matrix_from (coefficient : ℚ)
    (pixel_neighbors : ℕ → ℕ → ℕ) (pixel_neighbors_sizes : ℕ → ℕ)
    (pixels : ℕ) : Mat :=
  applyAdds zeroMat
    ((List.range pixels).flatMap (fun i =>
      (i, i, floorQ) ::
        (List.range (pixel_neighbors_sizes i)).flatMap (fun j =>
          [(i, i, coefficient ^ 2), (i, pixel_neighbors i j, -(coefficient ^ 2))])))

/-- The constant-scheme matrix as the specification words it: starting from
zeros, first add `1e-8` to every diagonal entry, then for each pixel `i` and
each of its first `pixel_neighbors_sizes[i]` listed neighbors `j`, add
`c ^ 2` to `[i, i]` and subtract `c ^ 2` from `[i, j]`. -/
def constantRegularizationMatrixSpec (coefficient : ℚ)
    (pixel_neighbors : ℕ → ℕ → ℕ) (pixel_neighbors_sizes : ℕ → ℕ)
    (pixels : ℕ) : Mat :=
  applyAdds zeroMat
    ((List.range pixels).map (fun i => (i, i, floorQ)) ++
      (List.range pixels).flatMap (fun i =>
        (List.range (pixel_neighbors_sizes i)).flatMap (fun j =>
          [(i, i, coefficient ^ 2), (i, pixel_neighbors i j, -(coefficient ^ 2))])))

/-- C2: for every coefficient and every neighbor table, the constant-scheme
regularization matrix built by the code equals the matrix built as the spec
describes it: from zeros, a `1e-8` floor on every diagonal entry, then for
each pixel `i` and each of its first `pixel_neighbors_sizes[i]` listed
neighbors `j`, `+c²` on the diagonal `[i, i]` and `-c²` on `[i, j]`. -/
theorem constant_regularization_matrix_matches_spec
    (coefficient : ℚ) (pixel_neighbors : ℕ → ℕ → ℕ)
    (pixel_neighbors_sizes : ℕ → ℕ) (pixels : ℕ) :
    constant_regularization_matrix_from coefficient pixel_neighbors
        pixel_neighbors_sizes pixels =
      constantRegularizationMatrixSpec coefficient pixel_neighbors
        pixel_neighbors_sizes pixels :=
  applyAdds_perm (flatMap_cons_perm _ _ _) _

/-- Embedding of `weighted_regularization_matrix_from`
(`regularization_util.py`, lines 174-222): the input weights are squared
once (`regularization_weight = regularization_weights ** 2.0`), then for
each pixel `i` the loop adds the `1e-8` diagonal floor and, for each
`j < pixel_neighbors_sizes[i]` with `neighbor_index = pixel_neighbors[i, j]`,
adds the neighbor's squared weight to both diagonal entries `[i, i]` and
`[neighbor_index, neighbor_index]` and subtracts it from both off-diagonal
entries `[i, neighbor_index]` and `[neighbor_index, i]`. -/
def weighted_regularization_matrix_from (regularization_weights : ℕ → ℚ)
    (pixel_neighbors : ℕ → ℕ → ℕ) (pixel_neighbors_sizes : ℕ → ℕ)
    (pixels : ℕ) : Mat :=
  let regularization_weight : ℕ → ℚ := fun p => regularization_weights p ^ 2
  applyAdds zeroMat
    ((List.range pixels).flatMap (fun i =>
      (i, i, floorQ) ::
        (List.range (pixel_neighbors_sizes i)).flatMap (fun j =>
          let neighbor_index := pixel_neighbors i j
          [(i, i, regularization_weight neighbor_index),
           (neighbor_index, neighbor_index, regularization_weight neighbor_index),
           (i, neighbor_index, -(regularization_weight neighbor_index)),
           (neighbor_index, i, -(regularization_weight neighbor_index))])))

/-- The weighted/adaptive matrix as the specification words it: on top of a
`1e-8` floor on every diagonal entry, for each pixel `i` and each listed
neighbor `j`, with `w[j]` the squared regularization weight of pixel `j`
(the neighbor's weight, not pixel `i`'s own), apply
`diag[i] += w[j]`, `diag[j] += w[j]`, `off[i, j] -= w[j]`,
`off[j, i] -= w[j]`. -/
def weightedRegularizationMatrixSpec (regularization_weights : ℕ → ℚ)
    (pixel_neighbors : ℕ → ℕ → ℕ) (pixel_neighbors_sizes : ℕ → ℕ)
    (pixels : ℕ) : Mat :=
  let w : ℕ → ℚ := fun p => regularization_weights p ^ 2
  applyAdds zeroMat
    ((List.range pixels).map (fun i => (i, i, floorQ)) ++
      (List.range pixels).flatMap (fun i =>
        (List.range (pixel_neighbors_sizes i)).flatMap (fun j =>
          let nb := pixel_neighbors i j
          [(i, i, w nb), (nb, nb, w nb), (i, nb, -(w nb)), (nb, i, -(w nb))])))

/-- A symmetric-combination variant the specification rules out: the same
update pattern but driven by the average of the two pixels' squared
weights. -/
def weightedRegularizationMatrixAvg (regularization_weights : ℕ → ℚ)
    (pixel_neighbors : ℕ → ℕ → ℕ) (pixel_neighbors_sizes : ℕ → ℕ)
    (pixels : ℕ) : Mat :=
  let w : ℕ → ℚ := fun p => regularization_weights p ^ 2
  applyAdds zeroMat
    ((List.range pixels).flatMap (fun i =>
      (i, i, floorQ) ::
        (List.range (pixel_neighbors_sizes i)).flatMap (fun j =>
          let nb := pixel_neighbors i j
          let c := (w i + w nb) / 2
          [(i, i, c), (nb, nb, c), (i, nb, -c), (nb, i, -c)])))

/-- A two-pixel example table: pixel 0 has the single neighbor 1, with
weights 1 and 2, on which the neighbor-weight rule and the averaged rule
give different matrices. -/
def exWeights : ℕ → ℚ := fun i => if i = 0 then 1 else 2

/-- Neighbor table for the two-pixel example: pixel 0 lists neighbor 1. -/
def exNeighbors : ℕ → ℕ → ℕ := fun _ _ => 1

/-- Neighbor counts for the two-pixel example: pixel 0 has one neighbor,
pixel 1 none. -/
def exSizes : ℕ → ℕ := fun i => if i = 0 then 1 else 0

/-- C3: the weighted/adaptive regularization matrix is built with the
neighbor's squared weight exactly as the spec describes it, and on a
concrete two-pixel table it differs from the symmetric average-of-weights
variant, so no symmetric combination is used. -/
theorem weighted_regularization_matrix_matches_spec :
    (∀ (regularization_weights : ℕ → ℚ) (pixel_neighbors : ℕ → ℕ → ℕ)
        (pixel_neighbors_sizes : ℕ → ℕ) (pixels : ℕ),
      weighted_regularization_matrix_from regularization_weights pixel_neighbors
          pixel_neighbors_sizes pixels =
        weightedRegularizationMatrixSpec regularization_weights pixel_neighbors
          pixel_neighbors_sizes pixels) ∧
    weighted_regularization_matrix_from exWeights exNeighbors exSizes 2 0 1 = -4 ∧
    weightedRegularizationMatrixAvg exWeights exNeighbors exSizes 2 0 1 = -5/2 ∧
    weighted_regularization_matrix_from exWeights exNeighbors exSizes 2 0 1 ≠
      weightedRegularizationMatrixAvg exWeights exNeighbors exSizes 2 0 1 := by
  refine ⟨fun rw_ pn pns pixels => applyAdds_perm (flatMap_cons_perm _ _ _) _, ?_, ?_, ?_⟩
  · norm_num [weighted_regularization_matrix_from, applyAdds, addCell, zeroMat,
      floorQ, exWeights, exNeighbors, exSizes, List.range_succ]
  · norm_num [weightedRegularizationMatrixAvg, applyAdds, addCell, zeroMat,
      floorQ, exWeights, exNeighbors, exSizes, List.range_succ]
  · norm_num [weighted_regularization_matrix_from, weightedRegularizationMatrixAvg,
      applyAdds, addCell, zeroMat, floorQ, exWeights, exNeighbors, exSizes, List.range_succ]

/-- The exception hierarchy relevant to the inversion core:
`exc.InversionException` raised by the determinant/Cholesky accessors of
`InversionMatrices`, `exc.FitException` raised by `reg_split_from`, and the
Python built-in `NameError`. -/
inductive PyException where
  | inversionException : PyException
  | fitException : PyException
  | nameError : PyException
  deriving DecidableEq

/-- Pivot sequence of the Cholesky factorization `np.linalg.cholesky`
(LAPACK `dpotrf` on the lower triangle) in exact arithmetic: the leading
pivot must be strictly positive, after which the algorithm recurses on the
Schur complement read from the lower triangle.  `none` models the
`LinAlgError` raised when a pivot is not positive (matrix not positive
definite); when it returns `some ds`, the diagonal of the lower-triangular
factor `L` is `ds.map Real.sqrt`. -/
def cholPivots : (n : ℕ) → Matrix (Fin n) (Fin n) ℚ → Option (List ℚ)
  | 0, _ => some []
  | n + 1, M =>
    let d := M 0 0
    if d ≤ 0 then none
    else
      (cholPivots n (Matrix.of fun i j =>
        M (Fin.succ i) (Fin.succ j) - M (Fin.succ i) 0 * M (Fin.succ j) 0 / d)).map
        (fun ds => d :: ds)

/-- The diagonal of the Cholesky factor `L` (`np.diag` of the result of
`np.linalg.cholesky`), when the factorization succeeds. -/
noncomputable def cholFactorDiag (n : ℕ) (M : Matrix (Fin n) (Fin n) ℚ) : Option (List ℝ) :=
  (cholPivots n M).map (List.map (fun d => Real.sqrt ((d : ℚ) : ℝ)))

/-- Embedding of the accessor `curvature_reg_matrix_cholesky`
(`matrices.py`, lines 75-88): return the Cholesky factorization of
`curvature_reg_matrix` (represented by its pivot sequence), and raise
`exc.InversionException` when `np.linalg.cholesky` fails with
`LinAlgError`. -/
def curvature_reg_matrix_cholesky (n : ℕ) (curvature_reg_matrix : Matrix (Fin n) (Fin n) ℚ) :
    Except PyException (List ℚ) :=
  match cholPivots n curvature_reg_matrix with
  | some ds => .ok ds
  | none => .error .inversionException

/-- The all-ones 3×3 matrix of the spec's singular-matrix worked example. -/
def onesMat3 : Matrix (Fin 3) (Fin 3) ℚ := Matrix.of fun _ _ => 1

theorem cholPivots_onesMat3 : cholPivots 3 onesMat3 = none := by
  simp only [show (3 : ℕ) = 2 + 1 from rfl, cholPivots, onesMat3]
  norm_num

/-- C1: the accessor `curvature_reg_matrix_cholesky` raises
`exc.InversionException` exactly when the Cholesky factorization fails,
and on the all-ones 3×3 matrix — which is singular (determinant zero),
hence not positive definite — the factorization does fail and the
designated error is raised rather than a factor returned. -/
theorem curvature_reg_matrix_cholesky_error_iff :
    (∀ (n : ℕ) (M : Matrix (Fin n) (Fin n) ℚ),
      curvature_reg_matrix_cholesky n M = .error .inversionException ↔
        cholPivots n M = none) ∧
    Matrix.det onesMat3 = 0 ∧
    cholPivots 3 onesMat3 = none ∧
    curvature_reg_matrix_cholesky 3 onesMat3 = .error .inversionException := by
  refine ⟨fun n M => ?_, ?_, cholPivots_onesMat3, ?_⟩
  · constructor
    · intro h
      cases hc : cholPivots n M with
      | none => rfl
      | some ds => rw [curvature_reg_matrix_cholesky, hc] at h; cases h
    · intro h
      rw [curvature_reg_matrix_cholesky, h]
  · rw [Matrix.det_fin_three]
    norm_num [onesMat3]
  · rw [curvature_reg_matrix_cholesky, cholPivots_onesMat3]

/-- Embedding of the accessor `log_det_curvature_reg_matrix_term`
(`matrices.py`, lines 106-114): `2.0 * np.sum(np.log(np.diag(L)))` where
`L` is the already-computed Cholesky factor of `curvature_reg_matrix`
(`none` when that factorization raised). -/
noncomputable def log_det_curvature_reg_matrix_term (n : ℕ)
    (curvature_reg_matrix : Matrix (Fin n) (Fin n) ℚ) : Option ℝ :=
  (cholFactorDiag n curvature_reg_matrix).map (fun diag => 2 * (diag.map Real.log).sum)

/-- A 3×3 rational matrix viewed over ℝ, for the independent generic
determinant of the worked examples. -/
def realMat {n : ℕ} (M : Matrix (Fin n) (Fin n) ℚ) : Matrix (Fin n) (Fin n) ℝ :=
  M.map (fun q => (q : ℝ))

/-- The 3×3 identity matrix of the determinant worked example. -/
def identMat3 : Matrix (Fin 3) (Fin 3) ℚ := Matrix.of fun i j => if i = j then 1 else 0

/-- The tridiagonal matrix `[[2,-1,0],[-1,2,-1],[0,-1,2]]` of the
determinant worked example. -/
def tridiagMat3 : Matrix (Fin 3) (Fin 3) ℚ :=
  Matrix.of fun i j =>
    if i = j then 2 else if i.val + 1 = j.val ∨ j.val + 1 = i.val then -1 else 0

theorem cholPivots_identMat3 : cholPivots 3 identMat3 = some [1, 1, 1] := by
  simp only [show (3 : ℕ) = 2 + 1 from rfl, cholPivots, identMat3]
  norm_num [Fin.ext_iff]

theorem cholPivots_tridiagMat3 : cholPivots 3 tridiagMat3 = some [2, 3/2, 4/3] := by
  simp only [show (3 : ℕ) = 2 + 1 from rfl, cholPivots, tridiagMat3]
  norm_num [Fin.ext_iff]

/-- C4: `log_det_curvature_reg_matrix_term` is `2·Σ log(diag L)` over the
already-computed Cholesky factor, and on the worked examples it agrees
with the log of an independently computed generic determinant:
`0 = log det` for the 3×3 identity and `log 4 = log det` for
`[[2,-1,0],[-1,2,-1],[0,-1,2]]`, exactly (hence within `1e-4`). -/
theorem log_det_curvature_reg_matrix_term_consistency :
    log_det_curvature_reg_matrix_term 3 identMat3 = some 0 ∧
    Real.log (Matrix.det (realMat identMat3)) = 0 ∧
    log_det_curvature_reg_matrix_term 3 tridiagMat3 = some (Real.log 4) ∧
    Real.log (Matrix.det (realMat tridiagMat3)) = Real.log 4 := by
  refine ⟨?_, ?_, ?_, ?_⟩
  · rw [log_det_curvature_reg_matrix_term, cholFactorDiag, cholPivots_identMat3]
    norm_num
  · rw [Matrix.det_fin_three]
    norm_num [realMat, identMat3, Fin.ext_iff]
  · rw [log_det_curvature_reg_matrix_term, cholFactorDiag, cholPivots_tridiagMat3]
    simp only [Option.map_some', List.map_cons, List.map_nil, List.sum_cons,
      List.sum_nil, Option.some.injEq]
    rw [show ((2 : ℚ) : ℝ) = 2 by norm_num, show ((3/2 : ℚ) : ℝ) = 3/2 by norm_num,
      show ((4/3 : ℚ) : ℝ) = 4/3 by norm_num]
    rw [Real.log_sqrt (by norm_num), Real.log_sqrt (by norm_num),
      Real.log_sqrt (by norm_num)]
    rw [show (4 : ℝ) = 2 * (3/2) * (4/3) by norm_num]
    rw [Real.log_mul (by norm_num) (by norm_num), Real.log_mul (by norm_num) (by norm_num)]
    ring_nf
  · rw [Matrix.det_fin_three]
    norm_num [realMat, tridiagMat3, Fin.ext_iff]

/-- Semantic model of the sparse LU attempt of
`log_det_regularization_matrix_term` (`matrices.py`, lines 137-145):
`scipy.sparse.linalg.splu` raises `RuntimeError` exactly when the matrix
is exactly singular; otherwise the code sums the complex logarithms of the
diagonals of the `L` and `U` factors and takes the real part, which in
exact arithmetic is `log |det H|` (the unit diagonal of `L` contributes
nothing, and the imaginary parts carry all sign information). -/
noncomputable def spluLogDet (n : ℕ) (H : Matrix (Fin n) (Fin n) ℚ) : Option ℝ :=
  if Matrix.det H = 0 then none else some (Real.log |((Matrix.det H : ℚ) : ℝ)|)

/-- Embedding of the accessor `log_det_regularization_matrix_term`
(`matrices.py`, lines 116-154): return the preloaded value when present;
otherwise attempt the sparse LU route; on its `RuntimeError`, fall back to
`2·Σ log(diag(L))` from a dense Cholesky of the regularization matrix; and
when that too fails (`LinAlgError`), raise `exc.InversionException`. -/
noncomputable def log_det_regularization_matrix_term (n : ℕ) (preload : Option ℝ)
    (regularization_matrix : Matrix (Fin n) (Fin n) ℚ) : Except PyException ℝ :=
  match preload with
  | some v => .ok v
  | none =>
    match spluLogDet n regularization_matrix with
    | some v => .ok v
    | none =>
      match cholFactorDiag n regularization_matrix with
      | some diag => .ok (2 * (diag.map Real.log).sum)
      | none => .error .inversionException

/-- C5: with no preload, `log_det_regularization_matrix_term` follows the
two-tier fallback — the sparse LU value when LU succeeds, the dense
Cholesky value `2·Σ log(diag L)` when LU fails but the Cholesky succeeds,
and the same `exc.InversionException` as the curvature-matrix Cholesky
failure when both fail. -/
theorem log_det_regularization_matrix_term_fallback :
    ∀ (n : ℕ) (H : Matrix (Fin n) (Fin n) ℚ),
      (Matrix.det H ≠ 0 →
        log_det_regularization_matrix_term n none H =
          .ok (Real.log |((Matrix.det H : ℚ) : ℝ)|)) ∧
      (Matrix.det H = 0 → ∀ diag, cholFactorDiag n H = some diag →
        log_det_regularization_matrix_term n none H =
          .ok (2 * (diag.map Real.log).sum)) ∧
      (Matrix.det H = 0 → cholFactorDiag n H = none →
        log_det_regularization_matrix_term n none H = .error .inversionException) := by
  intro n H
  refine ⟨fun hdet => ?_, fun hdet diag hchol => ?_, fun hdet hchol => ?_⟩
  · rw [log_det_regularization_matrix_term, spluLogDet, if_neg hdet]
  · rw [log_det_regularization_matrix_term, spluLogDet, if_pos hdet, hchol]
  · rw [log_det_regularization_matrix_term, spluLogDet, if_pos hdet, hchol]

/-- Witness for C5: the all-ones 3×3 regularization matrix is singular, so
the LU attempt fails, its dense Cholesky also fails, and the accessor
raises `exc.InversionException`. -/
theorem log_det_regularization_matrix_term_fallback_witness :
    log_det_regularization_matrix_term 3 none onesMat3 = .error .inversionException := by
  refine (log_det_regularization_matrix_term_fallback 3 onesMat3).2.2 ?_ ?_
  · rw [Matrix.det_fin_three]
    norm_num [onesMat3]
  · rw [cholFactorDiag, cholPivots_onesMat3]
    rfl

/-- Increment one counter of an integer-valued numpy vector
(`arr[p] += 1`). -/
def bumpAt (f : ℕ → ℕ) (p : ℕ) : ℕ → ℕ :=
  fun q => if q = p then f q + 1 else f q

/-- A single write `arr[p, t] = v` into a 2D numpy array of neighbor
indices. -/
def writeNb (nb : ℕ → ℕ → ℤ) (p t : ℕ) (v : ℤ) : ℕ → ℕ → ℤ :=
  fun p' t' => if p' = p ∧ t' = t then v else nb p' t'

/-- First pass of `voronoi_neighbors_from` (`pixelization_util.py`,
lines 354-360): `pixel_neighbors_sizes` counts, for every pixel, the
ridges incident to it. -/
def voronoi_sizes (ridge_points : List (ℕ × ℕ)) : ℕ → ℕ :=
  ridge_points.foldl (fun sz r => bumpAt (bumpAt sz r.1) r.2) (fun _ => 0)

/-- State of the second pass of `voronoi_neighbors_from`: the write
cursors `pixel_neighbors_index` and the table `pixel_neighbors`. -/
structure VorFill where
  index : ℕ → ℕ
  nb : ℕ → ℕ → ℤ

/-- One iteration of the fill loop of `voronoi_neighbors_from`
(lines 365-371): write each endpoint of the ridge into the other
endpoint's row at its current cursor, then advance both cursors. -/
def vorStep (st : VorFill) (r : ℕ × ℕ) : VorFill :=
  { index := bumpAt (bumpAt st.index r.1) r.2,
    nb := writeNb (writeNb st.nb r.1 (st.index r.1) (r.2 : ℤ)) r.2 (st.index r.2) (r.1 : ℤ) }

/-- Embedding of `voronoi_neighbors_from` (`pixelization_util.py`, lines
324-373): the neighbor table (rows initialised to the sentinel `-1`) and
the per-pixel neighbor counts built from the `ridge_points` list.  The
`pixels` argument only sizes the numpy allocations in the source. -/
def voronoi_neighbors_from (pixels : ℕ) (ridge_points : List (ℕ × ℕ)) :
    (ℕ → ℕ → ℤ) × (ℕ → ℕ) :=
  let fill := ridge_points.foldl vorStep { index := fun _ => 0, nb := fun _ _ => -1 }
  (fill.nb, voronoi_sizes ridge_points)

/-- Number of ridges incident to pixel `p`, counting a self-loop twice —
exactly what both passes of `voronoi_neighbors_from` count. -/
def incidence (l : List (ℕ × ℕ)) (p : ℕ) : ℕ :=
  (l.map (fun r => (if r.1 = p then 1 else 0) + (if r.2 = p then 1 else 0))).sum

theorem bumpAt_apply (f : ℕ → ℕ) (p q : ℕ) :
    bumpAt f p q = f q + (if p = q then 1 else 0) := by
  rw [bumpAt]
  by_cases h : q = p
  · subst h; simp
  · rw [if_neg h, if_neg (fun hc => h hc.symm)]
    omega

theorem voronoi_sizes_foldl (l : List (ℕ × ℕ)) :
    ∀ (sz0 : ℕ → ℕ) (p : ℕ),
      (l.foldl (fun sz r => bumpAt (bumpAt sz r.1) r.2) sz0) p = sz0 p + incidence l p := by
  induction l with
  | nil => intro sz0 p; simp [incidence]
  | cons r t ih =>
    intro sz0 p
    rw [List.foldl_cons, ih]
    simp only [incidence, List.map_cons, List.sum_cons]
    rw [bumpAt_apply, bumpAt_apply]
    omega

theorem voronoi_sizes_eq (l : List (ℕ × ℕ)) (p : ℕ) :
    voronoi_sizes l p = incidence l p := by
  rw [voronoi_sizes, voronoi_sizes_foldl]
  simp

/-- Loop invariant of the fill pass: cursors equal the incidence counts of
the ridges processed so far, every slot at or past a cursor still holds
the sentinel, and a pixel `q` occurs in the filled prefix of row `p`
exactly when some processed ridge joins `p` and `q`. -/
def VorInv (processed : List (ℕ × ℕ)) (st : VorFill) : Prop :=
  (∀ p, st.index p = incidence processed p) ∧
  (∀ p t, st.index p ≤ t → st.nb p t = -1) ∧
  (∀ p q : ℕ, (∃ t, t < st.index p ∧ st.nb p t = (q : ℤ)) ↔
    ((p, q) ∈ processed ∨ (q, p) ∈ processed))

theorem incidence_append (l : List (ℕ × ℕ)) (r : ℕ × ℕ) (p : ℕ) :
    incidence (l ++ [r]) p =
      incidence l p + ((if r.1 = p then 1 else 0) + (if r.2 = p then 1 else 0)) := by
  simp [incidence]

theorem vorStep_index (st : VorFill) (r : ℕ × ℕ) (p : ℕ) :
    (vorStep st r).index p =
      st.index p + ((if r.1 = p then 1 else 0) + (if r.2 = p then 1 else 0)) := by
  show bumpAt (bumpAt st.index r.1) r.2 p = _
  rw [bumpAt_apply, bumpAt_apply]
  omega

theorem vorStep_nb (st : VorFill) (r : ℕ × ℕ) (p t : ℕ) :
    (vorStep st r).nb p t =
      if p = r.2 ∧ t = st.index r.2 then (r.1 : ℤ)
      else if p = r.1 ∧ t = st.index r.1 then (r.2 : ℤ)
      else st.nb p t := rfl

theorem vorStep_cursor_lt (st : VorFill) (r : ℕ × ℕ) :
    st.index r.1 < (vorStep st r).index r.1 ∧
      st.index r.2 < (vorStep st r).index r.2 := by
  constructor <;> rw [vorStep_index]
  · have h1 : (if r.1 = r.1 then 1 else 0) = 1 := if_pos rfl
    omega
  · have h2 : (if r.2 = r.2 then 1 else 0) = 1 := if_pos rfl
    omega

theorem vorStep_inv {processed : List (ℕ × ℕ)} {st : VorFill} (r : ℕ × ℕ)
    (h : VorInv processed st) : VorInv (processed ++ [r]) (vorStep st r) := by
  obtain ⟨hidx, htail, hmem⟩ := h
  refine ⟨?_, ?_, ?_⟩
  · intro p
    rw [vorStep_index, incidence_append, hidx]
  · intro p t hle
    rw [vorStep_nb, if_neg, if_neg]
    · refine htail p t ?_
      have hvi := vorStep_index st r p
      omega
    · rintro ⟨rfl, rfl⟩
      have hc := (vorStep_cursor_lt st r).1
      omega
    · rintro ⟨rfl, rfl⟩
      have hc := (vorStep_cursor_lt st r).2
      omega
  · intro p q
    constructor
    · rintro ⟨t, ht, hv⟩
      rw [vorStep_nb] at hv
      by_cases h2 : p = r.2 ∧ t = st.index r.2
      · rw [if_pos h2] at hv
        have hq : q = r.1 := by exact_mod_cast hv.symm
        refine Or.inr (List.mem_append_right _ ?_)
        rw [List.mem_singleton, hq, h2.1]
      · rw [if_neg h2] at hv
        by_cases h1 : p = r.1 ∧ t = st.index r.1
        · rw [if_pos h1] at hv
          have hq : q = r.2 := by exact_mod_cast hv.symm
          refine Or.inl (List.mem_append_right _ ?_)
          rw [List.mem_singleton, hq, h1.1]
        · rw [if_neg h1] at hv
          by_cases hlt : t < st.index p
          · rcases (hmem p q).1 ⟨t, hlt, hv⟩ with hmem' | hmem'
            · exact Or.inl (List.mem_append_left _ hmem')
            · exact Or.inr (List.mem_append_left _ hmem')
          · exfalso
            have hvi := vorStep_index st r p
            rw [htail p t (by omega)] at hv
            cases hv
    · intro hPQ
      have hsplit :
          ((p, q) ∈ processed ∨ (q, p) ∈ processed) ∨
            ((p = r.1 ∧ q = r.2) ∨ (p = r.2 ∧ q = r.1)) := by
        rcases hPQ with hmem' | hmem'
        · rcases List.mem_append.1 hmem' with h' | h'
          · exact Or.inl (Or.inl h')
          · have h'' := List.mem_singleton.1 h'
            exact Or.inr (Or.inl ⟨congrArg Prod.fst h'', congrArg Prod.snd h''⟩)
        · rcases List.mem_append.1 hmem' with h' | h'
          · exact Or.inl (Or.inr h')
          · have h'' := List.mem_singleton.1 h'
            exact Or.inr (Or.inr ⟨congrArg Prod.snd h'', congrArg Prod.fst h''⟩)
      rcases hsplit with hold | hnew
      · obtain ⟨t, hlt, hv⟩ := (hmem p q).2 hold
        refine ⟨t, ?_, ?_⟩
        · have hvi := vorStep_index st r p
          omega
        · rw [vorStep_nb, if_neg, if_neg]
          · exact hv
          · rintro ⟨rfl, rfl⟩
            omega
          · rintro ⟨rfl, rfl⟩
            omega
      · rcases hnew with ⟨hp, hq⟩ | ⟨hp, hq⟩
      -- the ridge just processed wrote q into row p at the old cursor
        · refine ⟨st.index r.1, ?_, ?_⟩
          · rw [hp]
            exact (vorStep_cursor_lt st r).1
          · rw [hp, hq, vorStep_nb]
            by_cases hc : r.1 = r.2 ∧ st.index r.1 = st.index r.2
            · rw [if_pos hc, hc.1]
            · rw [if_neg hc, if_pos ⟨rfl, rfl⟩]
        · refine ⟨st.index r.2, ?_, ?_⟩
          · rw [hp]
            exact (vorStep_cursor_lt st r).2
          · rw [hp, hq, vorStep_nb, if_pos ⟨rfl, rfl⟩]

theorem vorFold_inv :
    ∀ (l : List (ℕ × ℕ)) (st : VorFill) (processed : List (ℕ × ℕ)),
      VorInv processed st → VorInv (processed ++ l) (l.foldl vorStep st) := by
  intro l
  induction l with
  | nil => intro st processed h; simpa using h
  | cons r t ih =>
    intro st processed h
    have h1 := vorStep_inv r h
    have h2 := ih (vorStep st r) (processed ++ [r]) h1
    rw [List.append_assoc] at h2
    simpa using h2

theorem vorInv_init : VorInv [] { index := fun _ => 0, nb := fun _ _ => -1 } := by
  refine ⟨fun p => rfl, fun p t _ => rfl, fun p q => ?_⟩
  simp

theorem voronoi_inv (ridge_points : List (ℕ × ℕ)) :
    VorInv ridge_points
      (ridge_points.foldl vorStep { index := fun _ => 0, nb := fun _ _ => -1 }) := by
  have := vorFold_inv ridge_points _ [] vorInv_init
  simpa using this

/-- C7: the neighbor table returned by the ridge-based Voronoi path is
symmetric — pixel `i` appears within the first `pixel_neighbors_sizes[j]`
entries of pixel `j`'s row exactly when `j` appears within the first
`pixel_neighbors_sizes[i]` entries of pixel `i`'s row, because every ridge
`(p0, p1)` adds `p1` to `p0`'s list and `p0` to `p1`'s. -/
theorem voronoi_neighbors_symmetric
    (pixels : ℕ) (ridge_points : List (ℕ × ℕ)) (i j : ℕ) :
    (∃ t, t < (voronoi_neighbors_from pixels ridge_points).2 i ∧
      (voronoi_neighbors_from pixels ridge_points).1 i t = (j : ℤ)) ↔
    (∃ t, t < (voronoi_neighbors_from pixels ridge_points).2 j ∧
      (voronoi_neighbors_from pixels ridge_points).1 j t = (i : ℤ)) := by
  obtain ⟨hidx, _, hmem⟩ := voronoi_inv ridge_points
  have hsz : ∀ p,
      (voronoi_neighbors_from pixels ridge_points).2 p =
        (ridge_points.foldl vorStep { index := fun _ => 0, nb := fun _ _ => -1 }).index p := by
    intro p
    rw [hidx p]
    exact voronoi_sizes_eq ridge_points p
  constructor
  · intro h
    rw [hsz i] at h
    have := (hmem i j).1 h
    rw [hsz j]
    exact (hmem j i).2 (Or.symm this)
  · intro h
    rw [hsz j] at h
    have := (hmem j i).1 h
    rw [hsz i]
    exact (hmem i j).2 (Or.symm this)

/-- C9 counterexample: `voronoi_neighbors_from` contains no assertion at
all — on the self-loop ridge list `[(0, 0)]` (one pixel, `p0 = p1`) the
construction completes and writes pixel 0 into its own neighbor row
(slot 0, inside the first `pixel_neighbors_sizes[0] = 2` entries), instead
of failing. -/
theorem voronoi_neighbors_accepts_self_loop :
    (voronoi_neighbors_from 1 [(0, 0)]).1 0 0 = (0 : ℤ) ∧
      (voronoi_neighbors_from 1 [(0, 0)]).2 0 = 2 ∧
      0 < (voronoi_neighbors_from 1 [(0, 0)]).2 0 := by
  refine ⟨rfl, rfl, ?_⟩
  decide

/-- C9 amended: `voronoi_neighbors_from` performs no defensive validation
of the ridge data — for every ridge list containing a self-loop `(p, p)`,
it returns normally and the produced table lists pixel `p` as one of its
own neighbors (within the first `pixel_neighbors_sizes[p]` entries). -/
theorem voronoi_neighbors_self_loop_self_neighbor
    (pixels : ℕ) (ridge_points : List (ℕ × ℕ)) (p : ℕ)
    (hmem : (p, p) ∈ ridge_points) :
    ∃ t, t < (voronoi_neighbors_from pixels ridge_points).2 p ∧
      (voronoi_neighbors_from pixels ridge_points).1 p t = (p : ℤ) := by
  obtain ⟨hidx, _, hmemInv⟩ := voronoi_inv ridge_points
  obtain ⟨t, hlt, hv⟩ := (hmemInv p p).2 (Or.inl hmem)
  refine ⟨t, ?_, hv⟩
  show t < voronoi_sizes ridge_points p
  rw [voronoi_sizes_eq, ← hidx p]
  exact hlt

/-- Witness for the amended C9 theorem at the concrete self-loop input
`[(0, 0)]`. -/
theorem voronoi_neighbors_self_loop_self_neighbor_witness :
    ∃ t, t < (voronoi_neighbors_from 1 [(0, 0)]).2 0 ∧
      (voronoi_neighbors_from 1 [(0, 0)]).1 0 t = ((0 : ℕ) : ℤ) :=
  voronoi_neighbors_self_loop_self_neighbor 1 [(0, 0)] 0 (by decide)

/-- The three numpy arrays passed to `reg_split_from`
(`regularization_util.py`, lines 9-57), embedded as total functions:
`splitted_mappings` (integer pixel indices), `splitted_sizes` and
`splitted_weights`.  The source mutates all three in place; the embedding
threads the state explicitly, so the state attached to an outcome is the
content of the caller's arrays at that point. -/
structure RegSplitState where
  mappings : ℕ → ℕ → ℤ
  sizes : ℕ → ℕ
  weights : ℕ → ℕ → ℚ

/-- In-place write `arr[i][j] = v` for an integer 2D array. -/
def updZ (f : ℕ → ℕ → ℤ) (i j : ℕ) (v : ℤ) : ℕ → ℕ → ℤ :=
  fun a b => if a = i ∧ b = j then v else f a b

/-- In-place write `arr[i][j] = v` for a rational 2D array. -/
def updQ (f : ℕ → ℕ → ℚ) (i j : ℕ) (v : ℚ) : ℕ → ℕ → ℚ :=
  fun a b => if a = i ∧ b = j then v else f a b

/-- In-place write `arr[i] = v` for a 1D counter array. -/
def updN (f : ℕ → ℕ) (i : ℕ) (v : ℕ) : ℕ → ℕ :=
  fun a => if a = i then v else f a

/-- Body of one inner-loop iteration of `reg_split_from` before the
overflow check: when `splitted_mappings[i][j] == pixel_index`, perform
`splitted_weights[i][j] += 1.0` (the flag is tracked by the caller). -/
def regSplitHitUpdate (i pix j : ℕ) (s : RegSplitState) : RegSplitState :=
  if s.mappings i j = (pix : ℤ)
  then { s with weights := updQ s.weights i j (s.weights i j + 1) }
  else s

/-- The inner loop `for j in range(splitted_sizes[i])` of `reg_split_from`
at row `i` with `pixel_index = pix`: arguments are the current loop index
`j`, the remaining iteration count, the state and the flag.  Each
iteration applies the hit update and then raises `exc.FitException`
(carrying the partially mutated arrays) when `j >= max_j`. -/
def regSplitRowLoop (maxJ : ℤ) (i pix : ℕ) :
    ℕ → ℕ → RegSplitState → Bool →
      Except (PyException × RegSplitState) (RegSplitState × Bool)
  | _, 0, s, flag => .ok (s, flag)
  | j, fuel + 1, s, flag =>
    if maxJ ≤ (j : ℤ) then .error (.fitException, regSplitHitUpdate i pix j s)
    else
      regSplitRowLoop maxJ i pix (j + 1) fuel (regSplitHitUpdate i pix j s)
        (flag || decide (s.mappings i j = (pix : ℤ)))

/-- One iteration of the outer loop of `reg_split_from` for row `i`:
run the inner loop, then — when the flag stayed 0 — execute
`splitted_mappings[i][j + 1] = pixel_index`, `splitted_sizes[i] += 1`,
`splitted_weights[i][j + 1] = 1.0`, where `j` is the Python loop variable
left over from the *last executed* inner iteration: the current row's last
index when `splitted_sizes[i] > 0`, the value leaked from an earlier row
otherwise, and undefined (`NameError`) when no inner iteration has ever
run. -/
def regSplitRow (maxJ : ℤ) (i pix : ℕ) (s : RegSplitState) (jVar : Option ℕ) :
    Except (PyException × RegSplitState) (RegSplitState × Option ℕ) :=
  match regSplitRowLoop maxJ i pix 0 (s.sizes i) s false with
  | .error e => .error e
  | .ok (s1, flag) =>
    let jVar' := if s.sizes i = 0 then jVar else some (s.sizes i - 1)
    if flag then .ok (s1, jVar')
    else
      match jVar' with
      | none => .error (.nameError, s1)
      | some jl =>
        .ok ({ mappings := updZ s1.mappings i (jl + 1) (pix : ℤ),
               sizes := updN s1.sizes i (s1.sizes i + 1),
               weights := updQ s1.weights i (jl + 1) 1 }, jVar')

/-- The outer loop `for i in range(len(splitted_mappings))` of
`reg_split_from`, with `pixel_index = i // 4`, threading the leaked loop
variable `j` between rows. -/
def regSplitOuter (maxJ : ℤ) :
    List ℕ → RegSplitState → Option ℕ →
      Except (PyException × RegSplitState) RegSplitState
  | [], s, _ => .ok s
  | i :: rest, s, jV =>
    match regSplitRow maxJ i (i / 4) s jV with
    | .error e => .error e
    | .ok (s1, jV1) => regSplitOuter maxJ rest s1 jV1

/-- Embedding of `reg_split_from` (`regularization_util.py`, lines 9-57):
`max_j = splitted_weights.shape[1] - 1`, then `splitted_weights *= -1.0`,
then the row loop.  `n` is the number of rows (`len(splitted_mappings)`)
and `slots` the number of columns of the splitted arrays. -/
def reg_split_from (n slots : ℕ) (s : RegSplitState) :
    Except (PyException × RegSplitState) RegSplitState :=
  regSplitOuter ((slots : ℤ) - 1) (List.range n)
    { s with weights := fun i j => -(s.weights i j) } none

/-- The exception carried by a failing `reg_split_from` outcome, if any. -/
def regSplitErrKind
    (r : Except (PyException × RegSplitState) RegSplitState) : Option PyException :=
  match r with
  | .error (e, _) => some e
  | .ok _ => none

/-- The content of the caller's arrays after `reg_split_from` finishes,
whether it returned or raised (the source mutates the arrays in place, so
they hold this state in either case). -/
def regSplitResultState
    (r : Except (PyException × RegSplitState) RegSplitState) : RegSplitState :=
  match r with
  | .error (_, s) => s
  | .ok s => s

/-- The array state attached to an inner-loop outcome. -/
def loopState
    (r : Except (PyException × RegSplitState) (RegSplitState × Bool)) : RegSplitState :=
  match r with
  | .error (_, s) => s
  | .ok (s, _) => s

theorem regSplitHitUpdate_sizes (i pix j : ℕ) (s : RegSplitState) :
    (regSplitHitUpdate i pix j s).sizes = s.sizes := by
  rw [regSplitHitUpdate]
  split <;> rfl

theorem regSplitRowLoop_sizes (maxJ : ℤ) (i pix : ℕ) :
    ∀ (fuel j : ℕ) (s : RegSplitState) (flag : Bool),
      (loopState (regSplitRowLoop maxJ i pix j fuel s flag)).sizes = s.sizes := by
  intro fuel
  induction fuel with
  | zero => intro j s flag; rfl
  | succ fuel ih =>
    intro j s flag
    rw [regSplitRowLoop]
    by_cases hr : maxJ ≤ (j : ℤ)
    · rw [if_pos hr]
      show (regSplitHitUpdate i pix j s).sizes = s.sizes
      exact regSplitHitUpdate_sizes ..
    · rw [if_neg hr, ih]
      exact regSplitHitUpdate_sizes ..

theorem regSplitRowLoop_ok (maxJ : ℤ) (i pix : ℕ) :
    ∀ (fuel j : ℕ) (s : RegSplitState) (flag : Bool),
      (∀ k, k < fuel → ((j + k : ℕ) : ℤ) < maxJ) →
      ∃ s' flag', regSplitRowLoop maxJ i pix j fuel s flag = .ok (s', flag') := by
  intro fuel
  induction fuel with
  | zero => intro j s flag _; exact ⟨s, flag, rfl⟩
  | succ fuel ih =>
    intro j s flag hsmall
    have h0 : (j : ℤ) < maxJ := by
      have := hsmall 0 (Nat.succ_pos fuel)
      push_cast at this
      omega
    rw [regSplitRowLoop, if_neg (by omega)]
    refine ih (j + 1) _ _ ?_
    intro k hk
    have := hsmall (k + 1) (by omega)
    push_cast at this ⊢
    omega

theorem regSplitRowLoop_fit (maxJ : ℤ) (i pix : ℕ) :
    ∀ (fuel j : ℕ) (s : RegSplitState) (flag : Bool),
      1 ≤ fuel → maxJ ≤ ((j + fuel - 1 : ℕ) : ℤ) →
      ∃ s', regSplitRowLoop maxJ i pix j fuel s flag = .error (.fitException, s') := by
  intro fuel
  induction fuel with
  | zero => intro j s flag h; omega
  | succ fuel ih =>
    intro j s flag _ hbig
    by_cases hr : maxJ ≤ (j : ℤ)
    · exact ⟨_, by rw [regSplitRowLoop, if_pos hr]⟩
    · have hfuel : 1 ≤ fuel := by
        rcases Nat.eq_zero_or_pos fuel with h0 | h1
        · exfalso
          subst h0
          simp only [Nat.add_sub_cancel] at hbig
          omega
        · exact h1
      rw [regSplitRowLoop, if_neg hr]
      refine ih (j + 1) _ _ hfuel ?_
      have hcast : ((j + 1 + fuel - 1 : ℕ) : ℤ) = ((j + (fuel + 1) - 1 : ℕ) : ℤ) := by
        congr 1
        omega
      rw [hcast]
      exact hbig

theorem regSplitRow_ok (slots i pix : ℕ) (s : RegSplitState) (jVar : Option ℕ)
    (hsize : s.sizes i < slots) (hj : 1 ≤ s.sizes i ∨ ∃ jl, jVar = some jl) :
    ∃ s' jl', regSplitRow ((slots : ℤ) - 1) i pix s jVar = .ok (s', some jl') ∧
      ∀ i', i' ≠ i → s'.sizes i' = s.sizes i' := by
  obtain ⟨s1, flag, hloop⟩ :=
    regSplitRowLoop_ok ((slots : ℤ) - 1) i pix (s.sizes i) 0 s false
      (by
        intro k hk
        push_cast
        omega)
  have hs1 : s1.sizes = s.sizes := by
    have := regSplitRowLoop_sizes ((slots : ℤ) - 1) i pix (s.sizes i) 0 s false
    rw [hloop] at this
    exact this
  rcases Nat.eq_zero_or_pos (s.sizes i) with h0 | h1
  · -- empty inner loop: the flag is still false and the leaked j is used
    obtain ⟨jl, hjl⟩ := (hj.resolve_left (by omega) : ∃ jl, jVar = some jl)
    have hflag : flag = false := by
      rw [h0, regSplitRowLoop] at hloop
      cases hloop
      rfl
    subst hjl
    subst hflag
    rw [regSplitRow, hloop, h0]
    refine ⟨_, jl, rfl, ?_⟩
    intro i' hi'
    show updN s1.sizes i (s1.sizes i + 1) i' = s.sizes i'
    rw [updN, if_neg hi', hs1]
  · have hne : ¬s.sizes i = 0 := by omega
    cases flag with
    | true =>
      rw [regSplitRow, hloop, if_neg hne]
      exact ⟨s1, s.sizes i - 1, rfl, fun i' _ => by rw [hs1]⟩
    | false =>
      rw [regSplitRow, hloop, if_neg hne]
      refine ⟨_, s.sizes i - 1, rfl, ?_⟩
      intro i' hi'
      show updN s1.sizes i (s1.sizes i + 1) i' = s.sizes i'
      rw [updN, if_neg hi', hs1]

theorem regSplitRow_fit (slots i pix : ℕ) (s : RegSplitState) (jVar : Option ℕ)
    (hslots : 1 ≤ slots) (hsize : slots ≤ s.sizes i) :
    ∃ s', regSplitRow ((slots : ℤ) - 1) i pix s jVar = .error (.fitException, s') := by
  obtain ⟨s', hloop⟩ :=
    regSplitRowLoop_fit ((slots : ℤ) - 1) i pix (s.sizes i) 0 s false
      (by omega)
      (by push_cast [Nat.zero_add]; omega)
  exact ⟨s', by rw [regSplitRow, hloop]⟩

theorem regSplitOuter_ok (slots : ℕ) :
    ∀ (l : List ℕ) (s : RegSplitState) (jV : Option ℕ),
      l.Nodup →
      (∀ i ∈ l, s.sizes i < slots) →
      ((∃ jl, jV = some jl) ∨ ∀ i₀, l.head? = some i₀ → 1 ≤ s.sizes i₀) →
      ∃ s', regSplitOuter ((slots : ℤ) - 1) l s jV = .ok s' := by
  intro l
  induction l with
  | nil => intro s jV _ _ _; exact ⟨s, rfl⟩
  | cons i rest ih =>
    intro s jV hnodup hsizes hguard
    have hj : 1 ≤ s.sizes i ∨ ∃ jl, jV = some jl := by
      rcases hguard with h | h
      · exact Or.inr h
      · exact Or.inl (h i rfl)
    obtain ⟨s', jl', hrow, hframe⟩ :=
      regSplitRow_ok slots i (i / 4) s jV (hsizes i (List.mem_cons_self i rest)) hj
    rw [regSplitOuter, hrow]
    refine ih s' (some jl') (List.Nodup.of_cons hnodup) ?_ (Or.inl ⟨jl', rfl⟩)
    intro i' hi'
    have hne : i' ≠ i := by
      intro hc
      subst hc
      exact (List.nodup_cons.1 hnodup).1 hi'
    rw [hframe i' hne]
    exact hsizes i' (List.mem_cons_of_mem i hi')

theorem regSplitOuter_fit (slots : ℕ) (hslots : 1 ≤ slots) :
    ∀ (l : List ℕ) (s : RegSplitState) (jV : Option ℕ),
      l.Nodup →
      ((∃ jl, jV = some jl) ∨ ∀ i₀, l.head? = some i₀ → 1 ≤ s.sizes i₀) →
      (∃ i ∈ l, slots ≤ s.sizes i) →
      ∃ s', regSplitOuter ((slots : ℤ) - 1) l s jV = .error (.fitException, s') := by
  intro l
  induction l with
  | nil => intro s jV _ _ hbad; simp at hbad
  | cons i rest ih =>
    intro s jV hnodup hguard hbad
    by_cases hover : slots ≤ s.sizes i
    · obtain ⟨s', hrow⟩ := regSplitRow_fit slots i (i / 4) s jV hslots hover
      exact ⟨s', by rw [regSplitOuter, hrow]⟩
    · have hj : 1 ≤ s.sizes i ∨ ∃ jl, jV = some jl := by
        rcases hguard with h | h
        · exact Or.inr h
        · exact Or.inl (h i rfl)
      obtain ⟨s', jl', hrow, hframe⟩ :=
        regSplitRow_ok slots i (i / 4) s jV (by omega) hj
      rw [regSplitOuter, hrow]
      refine ih s' (some jl') (List.Nodup.of_cons hnodup) (Or.inl ⟨jl', rfl⟩) ?_
      obtain ⟨ib, hib, hover'⟩ := hbad
      rcases List.mem_cons.1 hib with rfl | hib'
      · omega
      · refine ⟨ib, hib', ?_⟩
        have hne : ib ≠ i := by
          intro hc
          subst hc
          exact (List.nodup_cons.1 hnodup).1 hib'
        rw [hframe ib hne]
        exact hover'

/-- An input whose only cross point has an empty neighbor-mapping list:
every size (namely 0) is strictly below the 2 available slots. -/
def regSplitEmptyRow : RegSplitState :=
  { mappings := fun _ _ => 0, sizes := fun _ => 0, weights := fun _ _ => 0 }

/-- C6 counterexample: on one row with `splitted_sizes[0] = 0` and 2
neighbor slots — sizes strictly below the bound — `reg_split_from` does
not return normally: the inner loop never runs, the flag stays 0, and the
`flag == 0` branch reads the never-assigned Python loop variable `j`,
raising `NameError` instead of returning. -/
theorem reg_split_below_bound_raises_nameError :
    regSplitEmptyRow.sizes 0 < 2 ∧
      regSplitErrKind (reg_split_from 1 2 regSplitEmptyRow) =
        some PyException.nameError := by
  exact ⟨by decide, rfl⟩

/-- C6 amended: provided the first cross point's neighbor list is
non-empty (so the leaked loop variable `j` is always initialised and the
undefined-variable failure cannot preempt), `reg_split_from` returns
normally whenever every per-cross-point size stays strictly below the slot
count, and raises the designated `exc.FitException` whenever some size
reaches or exceeds the slot count (for arrays with at least one slot). -/
theorem reg_split_overflow_behaviour (n slots : ℕ) (s : RegSplitState)
    (hguard : n = 0 ∨ 1 ≤ s.sizes 0) :
    ((∀ i, i < n → s.sizes i < slots) →
      ∃ s', reg_split_from n slots s = .ok s') ∧
    (1 ≤ slots → (∃ i, i < n ∧ slots ≤ s.sizes i) →
      ∃ s', reg_split_from n slots s = .error (.fitException, s')) := by
  have hhead : ∀ i₀, (List.range n).head? = some i₀ →
      1 ≤ ({ s with weights := fun i j => -(s.weights i j) } : RegSplitState).sizes i₀ := by
    intro i₀ hh
    cases n with
    | zero => cases hh
    | succ m =>
      rw [List.range_succ_eq_map] at hh
      have : i₀ = 0 := by
        cases hh
        rfl
      subst this
      exact hguard.resolve_left (by omega)
  constructor
  · intro hsizes
    exact regSplitOuter_ok slots (List.range n) _ none (List.nodup_range n)
      (fun i hi => hsizes i (List.mem_range.1 hi)) (Or.inr hhead)
  · intro hslots hbad
    obtain ⟨i, hi, hover⟩ := hbad
    exact regSplitOuter_fit slots hslots (List.range n) _ none (List.nodup_range n)
      (Or.inr hhead) ⟨i, List.mem_range.2 hi, hover⟩

/-- A well-formed single-row input: the row's single mapping entry hits
its pixel index, with one slot available beyond it. -/
def regSplitHitRow : RegSplitState :=
  { mappings := fun _ _ => 0, sizes := fun _ => 1, weights := fun _ _ => 5 }

/-- Witness for the amended C6 theorem: with one row of size 1 and two
slots the call returns normally, and with one row of size 1 and one slot
it raises `exc.FitException`. -/
theorem reg_split_overflow_behaviour_witness :
    (∃ s', reg_split_from 1 2 regSplitHitRow = .ok s') ∧
      ∃ s', reg_split_from 1 1 regSplitHitRow = .error (.fitException, s') := by
  constructor
  · exact (reg_split_overflow_behaviour 1 2 regSplitHitRow (Or.inr (by decide))).1
      (fun i _ => by simp [regSplitHitRow])
  · exact (reg_split_overflow_behaviour 1 1 regSplitHitRow (Or.inr (by decide))).2
      (by decide) ⟨0, by decide, by decide⟩

/-- C10: `reg_split_from` works on the caller's arrays, not copies.
Observably: (1) the weights are negated on entry — with no rows to process
the caller's array comes back entry-wise negated; (2) when the Fit failure
is raised partway through, the caller's arrays are already partially
modified (on the concrete hit row, the input weight 5 has become
`-5 + 1 = -4` at the raise point — neither the original value nor its mere
negation), so the mutation is not atomic; and (3) running the function
again on the arrays left by a successful first call yields a different
result than the first call, so a second call does not reproduce the first. -/
theorem reg_split_mutates_in_place :
    (∀ (slots : ℕ) (s : RegSplitState) (i j : ℕ),
      (regSplitResultState (reg_split_from 0 slots s)).weights i j = -(s.weights i j)) ∧
    (regSplitErrKind (reg_split_from 1 1 regSplitHitRow) = some PyException.fitException ∧
      (regSplitResultState (reg_split_from 1 1 regSplitHitRow)).weights 0 0 = -4 ∧
      regSplitHitRow.weights 0 0 = 5) ∧
    (regSplitResultState (reg_split_from 1 3
        (regSplitResultState (reg_split_from 1 3 regSplitHitRow)))).weights 0 0 ≠
      (regSplitResultState (reg_split_from 1 3 regSplitHitRow)).weights 0 0 := by
  refine ⟨fun slots s i j => rfl, ⟨rfl, ?_, ?_⟩, ?_⟩
  · norm_num [reg_split_from, regSplitOuter, regSplitRow, regSplitRowLoop,
      regSplitHitUpdate, regSplitHitRow, regSplitResultState, updQ]
  · norm_num [regSplitHitRow]
  · norm_num [reg_split_from, regSplitOuter, regSplitRow, regSplitRowLoop,
      regSplitHitUpdate, regSplitHitRow, regSplitResultState, updQ]

/-- Slice assignment `pixel_neighbors[p, 0:k] = np.array(vs)`: the first
`vs.length` slots of row `p` are overwritten, later slots keep their old
content. -/
def setRowL (nb : ℕ → ℕ → ℤ) (p : ℕ) (vs : List ℤ) : ℕ → ℕ → ℤ :=
  fun p' t => if p' = p then vs.getD t (nb p' t) else nb p' t

/-- The neighbor-table state threaded through the passes of
`rectangular_neighbors_from`: the table and the per-pixel counts. -/
def RectSt : Type := (ℕ → ℕ → ℤ) × (ℕ → ℕ)

/-- A loop writing, for each `pix` in `l`, the row `f pix` of the table
with the values `vals pix` and the matching count — the common shape of
the edge and central passes of `rectangular_neighbors_from`. -/
def rowFold (f : ℕ → ℕ) (vals : ℕ → List ℤ) (l : List ℕ) (st : RectSt) : RectSt :=
  l.foldl (fun st pix => (setRowL st.1 (f pix) (vals pix), updN st.2 (f pix) (vals pix).length)) st

/-- Embedding of `rectangular_corner_neighbors` (`pixelization_util.py`,
lines 83-129): the four corner pixels receive their two neighbors. -/
def rectangular_corner_neighbors (rows cols : ℕ) (st : RectSt) : RectSt :=
  let pixels := rows * cols
  let st1 : RectSt := (setRowL st.1 0 [1, (cols : ℤ)], updN st.2 0 2)
  let st2 : RectSt := (setRowL st1.1 (cols - 1) [(cols : ℤ) - 2, (cols : ℤ) + (cols : ℤ) - 1],
    updN st1.2 (cols - 1) 2)
  let st3 : RectSt := (setRowL st2.1 (pixels - cols)
    [(pixels : ℤ) - (cols : ℤ) * 2, (pixels : ℤ) - (cols : ℤ) + 1], updN st2.2 (pixels - cols) 2)
  (setRowL st3.1 (pixels - 1) [(pixels : ℤ) - (cols : ℤ) - 1, (pixels : ℤ) - 2],
    updN st3.2 (pixels - 1) 2)

/-- Embedding of `rectangular_top_edge_neighbors` (`for pix in
range(1, shape_native[1] - 1)` with `pixel_index = pix`). -/
def rectangular_top_edge_neighbors (rows cols : ℕ) (st : RectSt) : RectSt :=
  rowFold (fun pix => pix)
    (fun pix => [(pix : ℤ) - 1, (pix : ℤ) + 1, (pix : ℤ) + (cols : ℤ)])
    (List.range' 1 (cols - 2)) st

/-- Embedding of `rectangular_left_edge_neighbors` (`pixel_index =
pix * shape_native[1]`). -/
def rectangular_left_edge_neighbors (rows cols : ℕ) (st : RectSt) : RectSt :=
  rowFold (fun pix => pix * cols)
    (fun pix => [((pix * cols : ℕ) : ℤ) - (cols : ℤ), ((pix * cols : ℕ) : ℤ) + 1,
      ((pix * cols : ℕ) : ℤ) + (cols : ℤ)])
    (List.range' 1 (rows - 2)) st

/-- Embedding of `rectangular_right_edge_neighbors` (`pixel_index =
pix * shape_native[1] + shape_native[1] - 1`). -/
def rectangular_right_edge_neighbors (rows cols : ℕ) (st : RectSt) : RectSt :=
  rowFold (fun pix => pix * cols + cols - 1)
    (fun pix => [((pix * cols + cols - 1 : ℕ) : ℤ) - (cols : ℤ),
      ((pix * cols + cols - 1 : ℕ) : ℤ) - 1,
      ((pix * cols + cols - 1 : ℕ) : ℤ) + (cols : ℤ)])
    (List.range' 1 (rows - 2)) st

/-- Embedding of `rectangular_bottom_edge_neighbors` (`pixel_index =
pixels - pix - 1`). -/
def rectangular_bottom_edge_neighbors (rows cols : ℕ) (st : RectSt) : RectSt :=
  rowFold (fun pix => rows * cols - pix - 1)
    (fun pix => [((rows * cols - pix - 1 : ℕ) : ℤ) - (cols : ℤ),
      ((rows * cols - pix - 1 : ℕ) : ℤ) - 1,
      ((rows * cols - pix - 1 : ℕ) : ℤ) + 1])
    (List.range' 1 (cols - 2)) st

/-- The neighbor values written for the interior pixel `x * cols + y` by
the central pass: above, left, right, below. -/
def centralVals (cols x : ℕ) : ℕ → List ℤ := fun y =>
  [((x * cols + y : ℕ) : ℤ) - (cols : ℤ), ((x * cols + y : ℕ) : ℤ) - 1,
    ((x * cols + y : ℕ) : ℤ) + 1, ((x * cols + y : ℕ) : ℤ) + (cols : ℤ)]

/-- Embedding of `rectangular_central_neighbors` (`pixel_index =
x * shape_native[1] + y` over the interior double loop). -/
def rectangular_central_neighbors (rows cols : ℕ) (st : RectSt) : RectSt :=
  (List.range' 1 (rows - 2)).foldl (fun st x =>
    rowFold (fun y => x * cols + y) (centralVals cols x)
      (List.range' 1 (cols - 2)) st) st

/-- Embedding of `rectangular_neighbors_from` (`pixelization_util.py`,
lines 8-80): table initialised to the sentinel `-1` and counts to zero,
then the corner, top, left, right, bottom and central passes in order. -/
def rectangular_neighbors_from (rows cols : ℕ) : RectSt :=
  rectangular_central_neighbors rows cols
    (rectangular_bottom_edge_neighbors rows cols
      (rectangular_right_edge_neighbors rows cols
        (rectangular_left_edge_neighbors rows cols
          (rectangular_top_edge_neighbors rows cols
            (rectangular_corner_neighbors rows cols (fun _ _ => -1, fun _ => 0))))))

/-- The row a pixel of the rectangular pixelization should receive: its
in-grid neighbors above, left, right, below — in the order the source
writes them — with `p = r * cols + c` the row-major pixel index. -/
def expectedRow (rows cols r c : ℕ) : List ℤ :=
  (if 0 < r then [((r * cols + c : ℕ) : ℤ) - (cols : ℤ)] else []) ++
  (if 0 < c then [((r * cols + c : ℕ) : ℤ) - 1] else []) ++
  (if c + 1 < cols then [((r * cols + c : ℕ) : ℤ) + 1] else []) ++
  (if r + 1 < rows then [((r * cols + c : ℕ) : ℤ) + (cols : ℤ)] else [])

theorem getD_getD (l : List ℤ) (t : ℕ) (x : ℤ) :
    l.getD t (l.getD t x) = l.getD t x := by
  rw [List.getD_eq_getElem?_getD, List.getD_eq_getElem?_getD]
  cases l[t]? <;> rfl

theorem rowFold_notin (f : ℕ → ℕ) (vals : ℕ → List ℤ) :
    ∀ (l : List ℕ) (st : RectSt) (p : ℕ),
      (∀ pix ∈ l, f pix ≠ p) →
      (∀ t, (rowFold f vals l st).1 p t = st.1 p t) ∧
        (rowFold f vals l st).2 p = st.2 p := by
  intro l
  induction l with
  | nil => intro st p _; exact ⟨fun t => rfl, rfl⟩
  | cons hd tl ih =>
    intro st p hne
    have hhd : f hd ≠ p := hne hd (List.mem_cons_self hd tl)
    have step := ih (setRowL st.1 (f hd) (vals hd), updN st.2 (f hd) (vals hd).length) p
      (fun pix hpix => hne pix (List.mem_cons_of_mem hd hpix))
    refine ⟨fun t => ?_, ?_⟩
    · rw [rowFold, List.foldl_cons]
      rw [show (tl.foldl _ _ : RectSt) = rowFold f vals tl _ from rfl, step.1 t]
      show (if p = f hd then (vals hd).getD t (st.1 p t) else st.1 p t) = st.1 p t
      rw [if_neg (fun hc => hhd hc.symm)]
    · rw [rowFold, List.foldl_cons]
      rw [show (tl.foldl _ _ : RectSt) = rowFold f vals tl _ from rfl, step.2]
      show (if p = f hd then (vals hd).length else st.2 p) = st.2 p
      rw [if_neg (fun hc => hhd hc.symm)]

theorem rowFold_mem (f : ℕ → ℕ) (vals : ℕ → List ℤ) :
    ∀ (l : List ℕ) (st : RectSt) (pix : ℕ),
      (∀ a ∈ l, ∀ b ∈ l, f a = f b → a = b) →
      pix ∈ l →
      (∀ t, (rowFold f vals l st).1 (f pix) t = (vals pix).getD t (st.1 (f pix) t)) ∧
        (rowFold f vals l st).2 (f pix) = (vals pix).length := by
  intro l
  induction l with
  | nil => intro st pix _ hmem; cases hmem
  | cons hd tl ih =>
    intro st pix hinj hmem
    have hstep : ∀ q t,
        ((setRowL st.1 (f hd) (vals hd), updN st.2 (f hd) (vals hd).length) : RectSt).1 q t =
          (if q = f hd then (vals hd).getD t (st.1 q t) else st.1 q t) := fun q t => rfl
    by_cases htl : pix ∈ tl
    · have hinj' : ∀ a ∈ tl, ∀ b ∈ tl, f a = f b → a = b := fun a ha b hb =>
        hinj a (List.mem_cons_of_mem hd ha) b (List.mem_cons_of_mem hd hb)
      have step := ih (setRowL st.1 (f hd) (vals hd), updN st.2 (f hd) (vals hd).length)
        pix hinj' htl
      refine ⟨fun t => ?_, ?_⟩
      · rw [rowFold, List.foldl_cons,
          show (tl.foldl _ _ : RectSt) = rowFold f vals tl _ from rfl, step.1 t, hstep]
        by_cases hfe : f pix = f hd
        · have : hd = pix :=
            hinj hd (List.mem_cons_self hd tl) pix (List.mem_cons_of_mem hd htl) hfe.symm
          subst this
          rw [if_pos hfe, getD_getD]
        · rw [if_neg hfe]
      · rw [rowFold, List.foldl_cons,
          show (tl.foldl _ _ : RectSt) = rowFold f vals tl _ from rfl, step.2]
    · have hpix : pix = hd := (List.mem_cons.1 hmem).resolve_right htl
      subst hpix
      have hne : ∀ q ∈ tl, f q ≠ f pix := by
        intro q hq hc
        exact htl (hinj q (List.mem_cons_of_mem pix hq) pix (List.mem_cons_self pix tl) hc ▸ hq)
      have step := rowFold_notin f vals tl
        (setRowL st.1 (f pix) (vals pix), updN st.2 (f pix) (vals pix).length) (f pix) hne
      refine ⟨fun t => ?_, ?_⟩
      · rw [rowFold, List.foldl_cons,
          show (tl.foldl _ _ : RectSt) = rowFold f vals tl _ from rfl, step.1 t, hstep,
          if_pos rfl]
      · rw [rowFold, List.foldl_cons,
          show (tl.foldl _ _ : RectSt) = rowFold f vals tl _ from rfl, step.2]
        show updN st.2 (f pix) (vals pix).length (f pix) = (vals pix).length
        rw [updN, if_pos rfl]

theorem rc_inj {cols : ℕ} (hpos : 0 < cols) {r c r' c' : ℕ}
    (hc : c < cols) (hc' : c' < cols) (h : r * cols + c = r' * cols + c') :
    r = r' ∧ c = c' := by
  have e1 : (r * cols + c) / cols = r := by
    rw [Nat.add_comm, Nat.add_mul_div_right _ _ hpos, Nat.div_eq_of_lt hc, Nat.zero_add]
  have e2 : (r' * cols + c') / cols = r' := by
    rw [Nat.add_comm, Nat.add_mul_div_right _ _ hpos, Nat.div_eq_of_lt hc', Nat.zero_add]
  have hr : r = r' := by rw [← e1, ← e2, h]
  subst hr
  exact ⟨rfl, by omega⟩

theorem corner_untouched (rows cols : ℕ) (st : RectSt) (p : ℕ)
    (h0 : p ≠ 0) (h1 : p ≠ cols - 1) (h2 : p ≠ rows * cols - cols) (h3 : p ≠ rows * cols - 1) :
    (∀ t, (rectangular_corner_neighbors rows cols st).1 p t = st.1 p t) ∧
      (rectangular_corner_neighbors rows cols st).2 p = st.2 p := by
  refine ⟨fun t => ?_, ?_⟩ <;>
    simp [rectangular_corner_neighbors, setRowL, updN, h0, h1, h2, h3]

theorem corner_written_tl (rows cols : ℕ) (hr : 3 ≤ rows) (hc : 3 ≤ cols) (st : RectSt) :
    (∀ t, (rectangular_corner_neighbors rows cols st).1 0 t =
      [1, (cols : ℤ)].getD t (st.1 0 t)) ∧
      (rectangular_corner_neighbors rows cols st).2 0 = 2 := by
  have hPc : 3 * cols ≤ rows * cols := Nat.mul_le_mul_right cols hr
  have h1 : (0 : ℕ) ≠ cols - 1 := by omega
  have h2 : (0 : ℕ) ≠ rows * cols - cols := by omega
  have h3 : (0 : ℕ) ≠ rows * cols - 1 := by omega
  refine ⟨fun t => ?_, ?_⟩ <;>
    simp [rectangular_corner_neighbors, setRowL, updN, h1, h2, h3]

theorem corner_written_tr (rows cols : ℕ) (hr : 3 ≤ rows) (hc : 3 ≤ cols) (st : RectSt) :
    (∀ t, (rectangular_corner_neighbors rows cols st).1 (cols - 1) t =
      [(cols : ℤ) - 2, (cols : ℤ) + (cols : ℤ) - 1].getD t (st.1 (cols - 1) t)) ∧
      (rectangular_corner_neighbors rows cols st).2 (cols - 1) = 2 := by
  have hPc : 3 * cols ≤ rows * cols := Nat.mul_le_mul_right cols hr
  have h0 : cols - 1 ≠ 0 := by omega
  have h2 : cols - 1 ≠ rows * cols - cols := by omega
  have h3 : cols - 1 ≠ rows * cols - 1 := by omega
  refine ⟨fun t => ?_, ?_⟩ <;>
    simp [rectangular_corner_neighbors, setRowL, updN, h0, h2, h3]

theorem corner_written_bl (rows cols : ℕ) (hr : 3 ≤ rows) (hc : 3 ≤ cols) (st : RectSt) :
    (∀ t, (rectangular_corner_neighbors rows cols st).1 (rows * cols - cols) t =
      [(rows * cols : ℤ) - (cols : ℤ) * 2, (rows * cols : ℤ) - (cols : ℤ) + 1].getD t
        (st.1 (rows * cols - cols) t)) ∧
      (rectangular_corner_neighbors rows cols st).2 (rows * cols - cols) = 2 := by
  have hPc : 3 * cols ≤ rows * cols := Nat.mul_le_mul_right cols hr
  have h0 : rows * cols - cols ≠ 0 := by omega
  have h1 : rows * cols - cols ≠ cols - 1 := by omega
  have h3 : rows * cols - cols ≠ rows * cols - 1 := by omega
  refine ⟨fun t => ?_, ?_⟩ <;>
    simp [rectangular_corner_neighbors, setRowL, updN, h0, h1, h3]

theorem corner_written_br (rows cols : ℕ) (hr : 3 ≤ rows) (hc : 3 ≤ cols) (st : RectSt) :
    (∀ t, (rectangular_corner_neighbors rows cols st).1 (rows * cols - 1) t =
      [(rows * cols : ℤ) - (cols : ℤ) - 1, (rows * cols : ℤ) - 2].getD t
        (st.1 (rows * cols - 1) t)) ∧
      (rectangular_corner_neighbors rows cols st).2 (rows * cols - 1) = 2 := by
  have hPc : 3 * cols ≤ rows * cols := Nat.mul_le_mul_right cols hr
  have h0 : rows * cols - 1 ≠ 0 := by omega
  have h1 : rows * cols - 1 ≠ cols - 1 := by omega
  have h2 : rows * cols - 1 ≠ rows * cols - cols := by omega
  refine ⟨fun t => ?_, ?_⟩ <;>
    simp [rectangular_corner_neighbors, setRowL, updN, h0, h1, h2]

theorem top_untouched (rows cols r c : ℕ) (hpos : 0 < cols) (hcc : c < cols)
    (hno : ¬(r = 0 ∧ 1 ≤ c ∧ c + 2 ≤ cols)) (st : RectSt) :
    (∀ t, (rectangular_top_edge_neighbors rows cols st).1 (r * cols + c) t =
      st.1 (r * cols + c) t) ∧
      (rectangular_top_edge_neighbors rows cols st).2 (r * cols + c) = st.2 (r * cols + c) := by
  refine rowFold_notin _ _ _ _ _ ?_
  intro pix hpix heq
  have hb := List.mem_range'_1.1 hpix
  obtain ⟨h0r, hpc⟩ := rc_inj hpos (show pix < cols by omega) hcc
    (show 0 * cols + pix = r * cols + c by omega)
  exact hno ⟨h0r.symm, by omega⟩

theorem top_written (rows cols r c : ℕ) (hr : 3 ≤ rows) (hc : 3 ≤ cols)
    (hr0 : r = 0) (h1 : 1 ≤ c) (h2 : c + 2 ≤ cols) (st : RectSt) :
    (∀ t, (rectangular_top_edge_neighbors rows cols st).1 (r * cols + c) t =
      (expectedRow rows cols r c).getD t (st.1 (r * cols + c) t)) ∧
      (rectangular_top_edge_neighbors rows cols st).2 (r * cols + c) =
        (expectedRow rows cols r c).length := by
  have hp : r * cols + c = c := by
    subst hr0
    omega
  have hrow : expectedRow rows cols r c = [(c : ℤ) - 1, (c : ℤ) + 1, (c : ℤ) + (cols : ℤ)] := by
    rw [expectedRow, if_neg (by omega), if_pos (by omega), if_pos (by omega), if_pos (by omega)]
    subst hr0
    norm_num
  rw [hp, hrow]
  exact rowFold_mem (fun pix => pix) _ (List.range' 1 (cols - 2)) st c
    (fun a _ b _ h => h) (List.mem_range'_1.2 ⟨h1, by omega⟩)

theorem left_untouched (rows cols r c : ℕ) (hpos : 0 < cols) (hcc : c < cols)
    (hno : ¬(c = 0 ∧ 1 ≤ r ∧ r + 2 ≤ rows)) (st : RectSt) :
    (∀ t, (rectangular_left_edge_neighbors rows cols st).1 (r * cols + c) t =
      st.1 (r * cols + c) t) ∧
      (rectangular_left_edge_neighbors rows cols st).2 (r * cols + c) = st.2 (r * cols + c) := by
  refine rowFold_notin _ _ _ _ _ ?_
  intro pix hpix heq
  have hb := List.mem_range'_1.1 hpix
  obtain ⟨hpr, h0c⟩ := rc_inj hpos (show (0 : ℕ) < cols by omega) hcc
    (show pix * cols + 0 = r * cols + c by omega)
  exact hno ⟨h0c.symm, by omega⟩

theorem left_written (rows cols r c : ℕ) (hr : 3 ≤ rows) (hc : 3 ≤ cols)
    (hc0 : c = 0) (h1 : 1 ≤ r) (h2 : r + 2 ≤ rows) (st : RectSt) :
    (∀ t, (rectangular_left_edge_neighbors rows cols st).1 (r * cols + c) t =
      (expectedRow rows cols r c).getD t (st.1 (r * cols + c) t)) ∧
      (rectangular_left_edge_neighbors rows cols st).2 (r * cols + c) =
        (expectedRow rows cols r c).length := by
  have hp : r * cols + c = r * cols := by omega
  have hrow : expectedRow rows cols r c =
      [((r * cols : ℕ) : ℤ) - (cols : ℤ), ((r * cols : ℕ) : ℤ) + 1,
        ((r * cols : ℕ) : ℤ) + (cols : ℤ)] := by
    rw [expectedRow, if_pos (by omega), if_neg (by omega), if_pos (by omega), if_pos (by omega)]
    subst hc0
    norm_num
  rw [hp, hrow]
  refine rowFold_mem (fun pix => pix * cols) _ (List.range' 1 (rows - 2)) st r
    ?_ (List.mem_range'_1.2 ⟨h1, by omega⟩)
  intro a _ b _ hab
  have hab' : a * cols = b * cols := hab
  exact Nat.eq_of_mul_eq_mul_right (by omega) hab'

theorem right_untouched (rows cols r c : ℕ) (hpos : 0 < cols) (hcc : c < cols)
    (hno : ¬(c = cols - 1 ∧ 1 ≤ r ∧ r + 2 ≤ rows)) (st : RectSt) :
    (∀ t, (rectangular_right_edge_neighbors rows cols st).1 (r * cols + c) t =
      st.1 (r * cols + c) t) ∧
      (rectangular_right_edge_neighbors rows cols st).2 (r * cols + c) = st.2 (r * cols + c) := by
  refine rowFold_notin _ _ _ _ _ ?_
  intro pix hpix heq
  have hb := List.mem_range'_1.1 hpix
  obtain ⟨hpr, hcc'⟩ := rc_inj hpos (show cols - 1 < cols by omega) hcc
    (show pix * cols + (cols - 1) = r * cols + c by omega)
  exact hno ⟨hcc'.symm, by omega⟩

theorem right_written (rows cols r c : ℕ) (hr : 3 ≤ rows) (hc : 3 ≤ cols)
    (hcl : c = cols - 1) (h1 : 1 ≤ r) (h2 : r + 2 ≤ rows) (st : RectSt) :
    (∀ t, (rectangular_right_edge_neighbors rows cols st).1 (r * cols + c) t =
      (expectedRow rows cols r c).getD t (st.1 (r * cols + c) t)) ∧
      (rectangular_right_edge_neighbors rows cols st).2 (r * cols + c) =
        (expectedRow rows cols r c).length := by
  have hp : r * cols + c = r * cols + cols - 1 := by omega
  have hrow : expectedRow rows cols r c =
      [((r * cols + cols - 1 : ℕ) : ℤ) - (cols : ℤ), ((r * cols + cols - 1 : ℕ) : ℤ) - 1,
        ((r * cols + cols - 1 : ℕ) : ℤ) + (cols : ℤ)] := by
    rw [expectedRow, if_pos (by omega), if_pos (by omega), if_neg (by omega), if_pos (by omega)]
    simp only [List.cons_append, List.nil_append, List.cons.injEq, and_true]
    refine ⟨by omega, by omega, by omega⟩
  rw [hp, hrow]
  refine rowFold_mem (fun pix => pix * cols + cols - 1) _ (List.range' 1 (rows - 2)) st r
    ?_ (List.mem_range'_1.2 ⟨h1, by omega⟩)
  intro a _ b _ hab
  have hab' : a * cols + cols - 1 = b * cols + cols - 1 := hab
  have hmul : a * cols = b * cols := by omega
  exact Nat.eq_of_mul_eq_mul_right (by omega) hmul

theorem bottom_untouched (rows cols r c : ℕ) (hr : 3 ≤ rows) (hc : 3 ≤ cols) (hcc : c < cols)
    (hno : ¬(r = rows - 1 ∧ 1 ≤ c ∧ c + 2 ≤ cols)) (st : RectSt) :
    (∀ t, (rectangular_bottom_edge_neighbors rows cols st).1 (r * cols + c) t =
      st.1 (r * cols + c) t) ∧
      (rectangular_bottom_edge_neighbors rows cols st).2 (r * cols + c) = st.2 (r * cols + c) := by
  have hPc : 3 * cols ≤ rows * cols := Nat.mul_le_mul_right cols hr
  have hsub : (rows - 1) * cols = rows * cols - cols := Nat.sub_one_mul rows cols
  refine rowFold_notin _ _ _ _ _ ?_
  intro pix hpix heq
  have hb := List.mem_range'_1.1 hpix
  have hE : rows * cols - pix - 1 = (rows - 1) * cols + (cols - 1 - pix) := by omega
  obtain ⟨hpr, hpc⟩ := rc_inj (show 0 < cols by omega) (show cols - 1 - pix < cols by omega) hcc
    (show (rows - 1) * cols + (cols - 1 - pix) = r * cols + c by omega)
  exact hno ⟨hpr.symm, by omega⟩

theorem bottom_written (rows cols r c : ℕ) (hr : 3 ≤ rows) (hc : 3 ≤ cols)
    (hrl : r = rows - 1) (h1 : 1 ≤ c) (h2 : c + 2 ≤ cols) (st : RectSt) :
    (∀ t, (rectangular_bottom_edge_neighbors rows cols st).1 (r * cols + c) t =
      (expectedRow rows cols r c).getD t (st.1 (r * cols + c) t)) ∧
      (rectangular_bottom_edge_neighbors rows cols st).2 (r * cols + c) =
        (expectedRow rows cols r c).length := by
  have hPc : 3 * cols ≤ rows * cols := Nat.mul_le_mul_right cols hr
  have hsub : (rows - 1) * cols = rows * cols - cols := Nat.sub_one_mul rows cols
  have hp : r * cols + c = rows * cols - (cols - 1 - c) - 1 := by
    subst hrl
    omega
  have hrow : expectedRow rows cols r c =
      [((rows * cols - (cols - 1 - c) - 1 : ℕ) : ℤ) - (cols : ℤ),
        ((rows * cols - (cols - 1 - c) - 1 : ℕ) : ℤ) - 1,
        ((rows * cols - (cols - 1 - c) - 1 : ℕ) : ℤ) + 1] := by
    rw [expectedRow, if_pos (by omega), if_pos (by omega), if_pos (by omega), if_neg (by omega)]
    simp only [List.cons_append, List.nil_append, List.append_nil, List.cons.injEq, and_true]
    refine ⟨by omega, by omega, by omega⟩
  rw [hp, hrow]
  refine rowFold_mem (fun pix => rows * cols - pix - 1) _ (List.range' 1 (cols - 2)) st
    (cols - 1 - c) ?_ (List.mem_range'_1.2 ⟨by omega, by omega⟩)
  intro a ha b hb hab
  have hab' : rows * cols - a - 1 = rows * cols - b - 1 := hab
  have ha' := List.mem_range'_1.1 ha
  have hb' := List.mem_range'_1.1 hb
  omega

theorem central_fold_untouched (rows cols r c : ℕ) :
    ∀ (xl : List ℕ) (st : RectSt),
      (∀ x ∈ xl, ∀ y, 1 ≤ y → y + 2 ≤ cols → x * cols + y ≠ r * cols + c) →
      (∀ t, ((xl.foldl (fun st x =>
          rowFold (fun y => x * cols + y) (centralVals cols x)
            (List.range' 1 (cols - 2)) st) st).1 (r * cols + c) t =
        st.1 (r * cols + c) t)) ∧
      ((xl.foldl (fun st x =>
          rowFold (fun y => x * cols + y) (centralVals cols x)
            (List.range' 1 (cols - 2)) st) st).2 (r * cols + c) =
        st.2 (r * cols + c)) := by
  intro xl
  induction xl with
  | nil => intro st _; exact ⟨fun t => rfl, rfl⟩
  | cons x tl ih =>
    intro st hno
    have hstep := rowFold_notin (fun y => x * cols + y) (centralVals cols x)
      (List.range' 1 (cols - 2)) st (r * cols + c)
      (by
        intro pix hpix
        have hb := List.mem_range'_1.1 hpix
        exact hno x (List.mem_cons_self x tl) pix (by omega) (by omega))
    have htl := ih (rowFold (fun y => x * cols + y) (centralVals cols x)
        (List.range' 1 (cols - 2)) st)
      (fun x' hx' => hno x' (List.mem_cons_of_mem x hx'))
    rw [List.foldl_cons]
    exact ⟨fun t => by rw [htl.1 t, hstep.1 t], by rw [htl.2, hstep.2]⟩

theorem central_untouched (rows cols r c : ℕ) (hpos : 0 < cols) (hcc : c < cols)
    (hno : ¬(1 ≤ r ∧ r + 2 ≤ rows ∧ 1 ≤ c ∧ c + 2 ≤ cols)) (st : RectSt) :
    (∀ t, (rectangular_central_neighbors rows cols st).1 (r * cols + c) t =
      st.1 (r * cols + c) t) ∧
      (rectangular_central_neighbors rows cols st).2 (r * cols + c) = st.2 (r * cols + c) := by
  refine central_fold_untouched rows cols r c (List.range' 1 (rows - 2)) st ?_
  intro x hx y hy1 hy2 heq
  have hb := List.mem_range'_1.1 hx
  obtain ⟨hxr, hyc⟩ := rc_inj hpos (show y < cols by omega) hcc heq
  exact hno ⟨by omega, by omega, by omega, by omega⟩

theorem central_fold_written (rows cols r c : ℕ) (hpos : 0 < cols) (hcc : c < cols)
    (h3 : 1 ≤ c) (h4 : c + 2 ≤ cols) :
    ∀ (xl : List ℕ) (st : RectSt), xl.Nodup → r ∈ xl →
      (∀ t, ((xl.foldl (fun st x =>
          rowFold (fun y => x * cols + y) (centralVals cols x)
            (List.range' 1 (cols - 2)) st) st).1 (r * cols + c) t =
        (centralVals cols r c).getD t (st.1 (r * cols + c) t))) ∧
      ((xl.foldl (fun st x =>
          rowFold (fun y => x * cols + y) (centralVals cols x)
            (List.range' 1 (cols - 2)) st) st).2 (r * cols + c) = 4) := by
  intro xl
  induction xl with
  | nil => intro st _ hmem; cases hmem
  | cons x tl ih =>
    intro st hnodup hmem
    rw [List.foldl_cons]
    by_cases hx : x = r
    · subst hx
      have hrtl : x ∉ tl := (List.nodup_cons.1 hnodup).1
      have hstep := rowFold_mem (fun y => x * cols + y) (centralVals cols x)
        (List.range' 1 (cols - 2)) st c
        (by
          intro a _ b _ hab
          have hab' : x * cols + a = x * cols + b := hab
          omega)
        (List.mem_range'_1.2 ⟨h3, by omega⟩)
      have htl := central_fold_untouched rows cols x c tl
        (rowFold (fun y => x * cols + y) (centralVals cols x) (List.range' 1 (cols - 2)) st)
        (by
          intro x' hx' y hy1 hy2 heq
          obtain ⟨hx'' , _⟩ := rc_inj hpos (show y < cols by omega) hcc heq
          exact hrtl (hx'' ▸ hx'))
      refine ⟨fun t => ?_, ?_⟩
      · rw [htl.1 t]
        exact hstep.1 t
      · rw [htl.2]
        exact hstep.2
    · have hrtl : r ∈ tl := (List.mem_cons.1 hmem).resolve_left (fun hc' => hx hc'.symm)
      have hstep := rowFold_notin (fun y => x * cols + y) (centralVals cols x)
        (List.range' 1 (cols - 2)) st (r * cols + c)
        (by
          intro pix hpix heq
          have hb := List.mem_range'_1.1 hpix
          obtain ⟨hxr, _⟩ := rc_inj hpos (show pix < cols by omega) hcc heq
          exact hx hxr)
      have htl := ih (rowFold (fun y => x * cols + y) (centralVals cols x)
          (List.range' 1 (cols - 2)) st)
        (List.Nodup.of_cons hnodup) hrtl
      refine ⟨fun t => ?_, ?_⟩
      · rw [htl.1 t, hstep.1 t]
      · rw [htl.2]

theorem central_written (rows cols r c : ℕ) (hr : 3 ≤ rows) (hc : 3 ≤ cols)
    (h1 : 1 ≤ r) (h2 : r + 2 ≤ rows) (h3 : 1 ≤ c) (h4 : c + 2 ≤ cols) (st : RectSt) :
    (∀ t, (rectangular_central_neighbors rows cols st).1 (r * cols + c) t =
      (expectedRow rows cols r c).getD t (st.1 (r * cols + c) t)) ∧
      (rectangular_central_neighbors rows cols st).2 (r * cols + c) =
        (expectedRow rows cols r c).length := by
  have hpos : 0 < cols := by omega
  have hrow : expectedRow rows cols r c =
      [((r * cols + c : ℕ) : ℤ) - (cols : ℤ), ((r * cols + c : ℕ) : ℤ) - 1,
        ((r * cols + c : ℕ) : ℤ) + 1, ((r * cols + c : ℕ) : ℤ) + (cols : ℤ)] := by
    rw [expectedRow, if_pos (by omega), if_pos (by omega), if_pos (by omega), if_pos (by omega)]
    rfl
  have haux := central_fold_written rows cols r c hpos (by omega) h3 h4
    (List.range' 1 (rows - 2)) st (List.nodup_range' 1 (rows - 2))
    (List.mem_range'_1.2 ⟨h1, by omega⟩)
  rw [rectangular_central_neighbors, hrow]
  refine ⟨fun t => ?_, ?_⟩
  · rw [haux.1 t]
    rfl
  · rw [haux.2]
    rfl

theorem rect_master (rows cols : ℕ) (hr : 3 ≤ rows) (hc : 3 ≤ cols)
    (r c : ℕ) (hrr : r < rows) (hcc : c < cols) :
    (∀ t, (rectangular_neighbors_from rows cols).1 (r * cols + c) t =
      (expectedRow rows cols r c).getD t (-1)) ∧
    (rectangular_neighbors_from rows cols).2 (r * cols + c) =
      (expectedRow rows cols r c).length := by
  have hpos : 0 < cols := by omega
  have hPc : 3 * cols ≤ rows * cols := Nat.mul_le_mul_right cols hr
  have hsub : (rows - 1) * cols = rows * cols - cols := Nat.sub_one_mul rows cols
  have hcast : ((rows * cols : ℕ) : ℤ) = (rows : ℤ) * (cols : ℤ) := by push_cast; ring
  unfold rectangular_neighbors_from
  by_cases hr0 : r = 0
  · subst hr0
    by_cases hc0 : c = 0
    · subst hc0
      have hp : 0 * cols + 0 = 0 := by omega
      have hrowEq : expectedRow rows cols 0 0 = [1, (cols : ℤ)] := by
        rw [expectedRow, if_neg (by omega), if_neg (by omega), if_pos (by omega),
          if_pos (by omega)]
        norm_num
      refine ⟨fun t => ?_, ?_⟩
      · rw [(central_untouched rows cols 0 0 hpos hcc (by omega) _).1 t,
          (bottom_untouched rows cols 0 0 hr hc hcc (by omega) _).1 t,
          (right_untouched rows cols 0 0 hpos hcc (by omega) _).1 t,
          (left_untouched rows cols 0 0 hpos hcc (by omega) _).1 t,
          (top_untouched rows cols 0 0 hpos hcc (by omega) _).1 t, hp,
          (corner_written_tl rows cols hr hc _).1 t, hrowEq]
      · rw [(central_untouched rows cols 0 0 hpos hcc (by omega) _).2,
          (bottom_untouched rows cols 0 0 hr hc hcc (by omega) _).2,
          (right_untouched rows cols 0 0 hpos hcc (by omega) _).2,
          (left_untouched rows cols 0 0 hpos hcc (by omega) _).2,
          (top_untouched rows cols 0 0 hpos hcc (by omega) _).2, hp,
          (corner_written_tl rows cols hr hc _).2, hrowEq]
        rfl
    · by_cases hcl : c = cols - 1
      · subst hcl
        have hp : 0 * cols + (cols - 1) = cols - 1 := by omega
        have hrowEq : expectedRow rows cols 0 (cols - 1) =
            [(cols : ℤ) - 2, (cols : ℤ) + (cols : ℤ) - 1] := by
          rw [expectedRow, if_neg (by omega), if_pos (by omega), if_neg (by omega),
            if_pos (by omega)]
          simp only [List.nil_append, List.append_nil, List.cons_append, List.cons.injEq,
            and_true]
          refine ⟨by omega, by omega⟩
        refine ⟨fun t => ?_, ?_⟩
        · rw [(central_untouched rows cols 0 (cols - 1) hpos hcc (by omega) _).1 t,
            (bottom_untouched rows cols 0 (cols - 1) hr hc hcc (by omega) _).1 t,
            (right_untouched rows cols 0 (cols - 1) hpos hcc (by omega) _).1 t,
            (left_untouched rows cols 0 (cols - 1) hpos hcc (by omega) _).1 t,
            (top_untouched rows cols 0 (cols - 1) hpos hcc (by omega) _).1 t, hp,
            (corner_written_tr rows cols hr hc _).1 t, hrowEq]
        · rw [(central_untouched rows cols 0 (cols - 1) hpos hcc (by omega) _).2,
            (bottom_untouched rows cols 0 (cols - 1) hr hc hcc (by omega) _).2,
            (right_untouched rows cols 0 (cols - 1) hpos hcc (by omega) _).2,
            (left_untouched rows cols 0 (cols - 1) hpos hcc (by omega) _).2,
            (top_untouched rows cols 0 (cols - 1) hpos hcc (by omega) _).2, hp,
            (corner_written_tr rows cols hr hc _).2, hrowEq]
          rfl
      · -- top edge
        have hne1 : 0 * cols + c ≠ 0 := by omega
        have hne2 : 0 * cols + c ≠ cols - 1 := by omega
        have hne3 : 0 * cols + c ≠ rows * cols - cols := by omega
        have hne4 : 0 * cols + c ≠ rows * cols - 1 := by omega
        refine ⟨fun t => ?_, ?_⟩
        · rw [(central_untouched rows cols 0 c hpos hcc (by omega) _).1 t,
            (bottom_untouched rows cols 0 c hr hc hcc (by omega) _).1 t,
            (right_untouched rows cols 0 c hpos hcc (by omega) _).1 t,
            (left_untouched rows cols 0 c hpos hcc (by omega) _).1 t,
            (top_written rows cols 0 c hr hc rfl (by omega) (by omega) _).1 t,
            (corner_untouched rows cols _ (0 * cols + c) hne1 hne2 hne3 hne4).1 t]
        · rw [(central_untouched rows cols 0 c hpos hcc (by omega) _).2,
            (bottom_untouched rows cols 0 c hr hc hcc (by omega) _).2,
            (right_untouched rows cols 0 c hpos hcc (by omega) _).2,
            (left_untouched rows cols 0 c hpos hcc (by omega) _).2,
            (top_written rows cols 0 c hr hc rfl (by omega) (by omega) _).2]
  · by_cases hrl : r = rows - 1
    · subst hrl
      by_cases hc0 : c = 0
      · subst hc0
        have hp : (rows - 1) * cols + 0 = rows * cols - cols := by omega
        have hrowEq : expectedRow rows cols (rows - 1) 0 =
            [(rows * cols : ℤ) - (cols : ℤ) * 2, (rows * cols : ℤ) - (cols : ℤ) + 1] := by
          rw [expectedRow, if_pos (by omega), if_neg (by omega), if_pos (by omega),
            if_neg (by omega)]
          simp only [List.nil_append, List.append_nil, List.cons_append, List.cons.injEq,
            and_true]
          refine ⟨by omega, by omega⟩
        refine ⟨fun t => ?_, ?_⟩
        · rw [(central_untouched rows cols (rows - 1) 0 hpos hcc (by omega) _).1 t,
            (bottom_untouched rows cols (rows - 1) 0 hr hc hcc (by omega) _).1 t,
            (right_untouched rows cols (rows - 1) 0 hpos hcc (by omega) _).1 t,
            (left_untouched rows cols (rows - 1) 0 hpos hcc (by omega) _).1 t,
            (top_untouched rows cols (rows - 1) 0 hpos hcc (by omega) _).1 t, hp,
            (corner_written_bl rows cols hr hc _).1 t, hrowEq]
        · rw [(central_untouched rows cols (rows - 1) 0 hpos hcc (by omega) _).2,
            (bottom_untouched rows cols (rows - 1) 0 hr hc hcc (by omega) _).2,
            (right_untouched rows cols (rows - 1) 0 hpos hcc (by omega) _).2,
            (left_untouched rows cols (rows - 1) 0 hpos hcc (by omega) _).2,
            (top_untouched rows cols (rows - 1) 0 hpos hcc (by omega) _).2, hp,
            (corner_written_bl rows cols hr hc _).2, hrowEq]
          rfl
      · by_cases hcl : c = cols - 1
        · subst hcl
          have hp : (rows - 1) * cols + (cols - 1) = rows * cols - 1 := by omega
          have hrowEq : expectedRow rows cols (rows - 1) (cols - 1) =
              [(rows * cols : ℤ) - (cols : ℤ) - 1, (rows * cols : ℤ) - 2] := by
            rw [expectedRow, if_pos (by omega), if_pos (by omega), if_neg (by omega),
              if_neg (by omega)]
            simp only [List.nil_append, List.append_nil, List.cons_append, List.cons.injEq,
              and_true]
            refine ⟨by omega, by omega⟩
          refine ⟨fun t => ?_, ?_⟩
          · rw [(central_untouched rows cols (rows - 1) (cols - 1) hpos hcc (by omega) _).1 t,
              (bottom_untouched rows cols (rows - 1) (cols - 1) hr hc hcc (by omega) _).1 t,
              (right_untouched rows cols (rows - 1) (cols - 1) hpos hcc (by omega) _).1 t,
              (left_untouched rows cols (rows - 1) (cols - 1) hpos hcc (by omega) _).1 t,
              (top_untouched rows cols (rows - 1) (cols - 1) hpos hcc (by omega) _).1 t, hp,
              (corner_written_br rows cols hr hc _).1 t, hrowEq]
          · rw [(central_untouched rows cols (rows - 1) (cols - 1) hpos hcc (by omega) _).2,
              (bottom_untouched rows cols (rows - 1) (cols - 1) hr hc hcc (by omega) _).2,
              (right_untouched rows cols (rows - 1) (cols - 1) hpos hcc (by omega) _).2,
              (left_untouched rows cols (rows - 1) (cols - 1) hpos hcc (by omega) _).2,
              (top_untouched rows cols (rows - 1) (cols - 1) hpos hcc (by omega) _).2, hp,
              (corner_written_br rows cols hr hc _).2, hrowEq]
            rfl
        · -- bottom edge
          have hne1 : (rows - 1) * cols + c ≠ 0 := by omega
          have hne2 : (rows - 1) * cols + c ≠ cols - 1 := by omega
          have hne3 : (rows - 1) * cols + c ≠ rows * cols - cols := by omega
          have hne4 : (rows - 1) * cols + c ≠ rows * cols - 1 := by omega
          refine ⟨fun t => ?_, ?_⟩
          · rw [(central_untouched rows cols (rows - 1) c hpos hcc (by omega) _).1 t,
              (bottom_written rows cols (rows - 1) c hr hc rfl (by omega) (by omega) _).1 t,
              (right_untouched rows cols (rows - 1) c hpos hcc (by omega) _).1 t,
              (left_untouched rows cols (rows - 1) c hpos hcc (by omega) _).1 t,
              (top_untouched rows cols (rows - 1) c hpos hcc (by omega) _).1 t,
              (corner_untouched rows cols _ ((rows - 1) * cols + c) hne1 hne2 hne3 hne4).1 t]
          · rw [(central_untouched rows cols (rows - 1) c hpos hcc (by omega) _).2,
              (bottom_written rows cols (rows - 1) c hr hc rfl (by omega) (by omega) _).2]
    · have hne1 : r * cols + c ≠ 0 := by
        intro heq
        have := rc_inj hpos hcc (show (0 : ℕ) < cols by omega)
          (show r * cols + c = 0 * cols + 0 by omega)
        omega
      have hne2 : r * cols + c ≠ cols - 1 := by
        intro heq
        have := rc_inj hpos hcc (show cols - 1 < cols by omega)
          (show r * cols + c = 0 * cols + (cols - 1) by omega)
        omega
      have hne3 : r * cols + c ≠ rows * cols - cols := by
        intro heq
        have := rc_inj hpos hcc (show (0 : ℕ) < cols by omega)
          (show r * cols + c = (rows - 1) * cols + 0 by omega)
        omega
      have hne4 : r * cols + c ≠ rows * cols - 1 := by
        intro heq
        have := rc_inj hpos hcc (show cols - 1 < cols by omega)
          (show r * cols + c = (rows - 1) * cols + (cols - 1) by omega)
        omega
      by_cases hc0 : c = 0
      · subst hc0
        -- left edge
        refine ⟨fun t => ?_, ?_⟩
        · rw [(central_untouched rows cols r 0 hpos hcc (by omega) _).1 t,
            (bottom_untouched rows cols r 0 hr hc hcc (by omega) _).1 t,
            (right_untouched rows cols r 0 hpos hcc (by omega) _).1 t,
            (left_written rows cols r 0 hr hc rfl (by omega) (by omega) _).1 t,
            (top_untouched rows cols r 0 hpos hcc (by omega) _).1 t,
            (corner_untouched rows cols _ (r * cols + 0) hne1 hne2 hne3 hne4).1 t]
        · rw [(central_untouched rows cols r 0 hpos hcc (by omega) _).2,
            (bottom_untouched rows cols r 0 hr hc hcc (by omega) _).2,
            (right_untouched rows cols r 0 hpos hcc (by omega) _).2,
            (left_written rows cols r 0 hr hc rfl (by omega) (by omega) _).2]
      · by_cases hcl : c = cols - 1
        · subst hcl
          -- right edge
          refine ⟨fun t => ?_, ?_⟩
          · rw [(central_untouched rows cols r (cols - 1) hpos hcc (by omega) _).1 t,
              (bottom_untouched rows cols r (cols - 1) hr hc hcc (by omega) _).1 t,
              (right_written rows cols r (cols - 1) hr hc rfl (by omega) (by omega) _).1 t,
              (left_untouched rows cols r (cols - 1) hpos hcc (by omega) _).1 t,
              (top_untouched rows cols r (cols - 1) hpos hcc (by omega) _).1 t,
              (corner_untouched rows cols _ (r * cols + (cols - 1)) hne1 hne2 hne3 hne4).1 t]
          · rw [(central_untouched rows cols r (cols - 1) hpos hcc (by omega) _).2,
              (bottom_untouched rows cols r (cols - 1) hr hc hcc (by omega) _).2,
              (right_written rows cols r (cols - 1) hr hc rfl (by omega) (by omega) _).2]
        · -- interior
          refine ⟨fun t => ?_, ?_⟩
          · rw [(central_written rows cols r c hr hc (by omega) (by omega) (by omega)
                (by omega) _).1 t,
              (bottom_untouched rows cols r c hr hc hcc (by omega) _).1 t,
              (right_untouched rows cols r c hpos hcc (by omega) _).1 t,
              (left_untouched rows cols r c hpos hcc (by omega) _).1 t,
              (top_untouched rows cols r c hpos hcc (by omega) _).1 t,
              (corner_untouched rows cols _ (r * cols + c) hne1 hne2 hne3 hne4).1 t]
          · rw [(central_written rows cols r c hr hc (by omega) (by omega) (by omega)
                (by omega) _).2]

theorem mem_ite_singleton {b : Prop} [Decidable b] (x v : ℤ) :
    (v ∈ (if b then [x] else ([] : List ℤ))) ↔ b ∧ v = x := by
  split <;> simp [*]

theorem expectedRow_length (rows cols r c : ℕ) (hr : 3 ≤ rows) (hc : 3 ≤ cols)
    (hrr : r < rows) (hcc : c < cols) :
    (expectedRow rows cols r c).length =
      if (r = 0 ∨ r = rows - 1) ∧ (c = 0 ∨ c = cols - 1) then 2
      else if r = 0 ∨ r = rows - 1 ∨ c = 0 ∨ c = cols - 1 then 3 else 4 := by
  rw [expectedRow]
  by_cases h1 : 0 < r <;> by_cases h2 : 0 < c <;> by_cases h3 : c + 1 < cols <;>
    by_cases h4 : r + 1 < rows <;>
    simp [h1, h2, h3, h4] <;> split_ifs <;> omega

theorem getD_exists_mem (l : List ℤ) (v : ℤ) :
    (∃ t, t < l.length ∧ l.getD t (-1) = v) ↔ v ∈ l := by
  constructor
  · rintro ⟨t, ht, hv⟩
    rw [List.getD_eq_getElem?_getD, List.getElem?_eq_getElem ht, Option.getD_some] at hv
    exact hv ▸ List.getElem_mem ht
  · intro hv
    obtain ⟨i, hi, hget⟩ := List.mem_iff_getElem.1 hv
    exact ⟨i, hi, by
      rw [List.getD_eq_getElem?_getD, List.getElem?_eq_getElem hi, Option.getD_some]
      exact hget⟩

theorem expectedRow_mem (rows cols r c q : ℕ) (hr : 3 ≤ rows) (hc : 3 ≤ cols)
    (hrr : r < rows) (hcc : c < cols) :
    ((q : ℤ) ∈ expectedRow rows cols r c) ↔
      (∃ r' c', r' < rows ∧ c' < cols ∧ q = r' * cols + c' ∧
        ((r' = r ∧ (c' + 1 = c ∨ c' = c + 1)) ∨ (c' = c ∧ (r' + 1 = r ∨ r' = r + 1)))) := by
  have hsm : ∀ k : ℕ, (k + 1) * cols = k * cols + cols := fun k => Nat.succ_mul k cols
  have hpm : (r - 1) * cols = r * cols - cols := Nat.sub_one_mul r cols
  have hcm : 0 < r → cols ≤ r * cols := by
    intro h
    have := Nat.mul_le_mul_right cols (show 1 ≤ r from h)
    rwa [Nat.one_mul] at this
  rw [expectedRow]
  simp only [List.mem_append, mem_ite_singleton]
  constructor
  · rintro (((⟨h, hv⟩ | ⟨h, hv⟩) | ⟨h, hv⟩) | ⟨h, hv⟩)
    · have hle := hcm h
      exact ⟨r - 1, c, by omega, hcc, by omega, Or.inr ⟨rfl, Or.inl (by omega)⟩⟩
    · exact ⟨r, c - 1, hrr, by omega, by omega, Or.inl ⟨rfl, Or.inl (by omega)⟩⟩
    · exact ⟨r, c + 1, hrr, by omega, by omega, Or.inl ⟨rfl, Or.inr rfl⟩⟩
    · have hs := hsm r
      exact ⟨r + 1, c, by omega, hcc, by omega, Or.inr ⟨rfl, Or.inr rfl⟩⟩
  · rintro ⟨r', c', hr', hc', hq, (⟨rfl, hcs⟩ | ⟨rfl, hrs⟩)⟩
    · rcases hcs with hcs | hcs
      · exact Or.inl (Or.inl (Or.inr ⟨by omega, by omega⟩))
      · exact Or.inl (Or.inr ⟨by omega, by omega⟩)
    · rcases hrs with hrs | hrs
      · have hs : r * cols = r' * cols + cols := by
          rw [← hrs]
          exact hsm r'
        refine Or.inl (Or.inl (Or.inl ⟨by omega, by omega⟩))
      · have hs : r' * cols = r * cols + cols := by
          rw [hrs]
          exact hsm r
        exact Or.inr ⟨by omega, by omega⟩

/-- C8: for every rectangular shape with at least 3 rows and 3 columns
and row-major pixel index `p = r * cols + c`, `rectangular_neighbors_from`
returns exactly the 4-adjacency: corner pixels have neighbor count 2,
non-corner edge pixels 3, interior pixels 4; a pixel `q` is listed among
the first `pixel_neighbors_sizes[p]` entries of row `p` precisely when it
is horizontally or vertically adjacent to `p` on the grid; and all unused
slots hold the sentinel `-1`. -/
theorem rectangular_neighbors_adjacency (rows cols : ℕ) (hr : 3 ≤ rows) (hc : 3 ≤ cols)
    (r c : ℕ) (hrr : r < rows) (hcc : c < cols) :
    ((rectangular_neighbors_from rows cols).2 (r * cols + c) =
      if (r = 0 ∨ r = rows - 1) ∧ (c = 0 ∨ c = cols - 1) then 2
      else if r = 0 ∨ r = rows - 1 ∨ c = 0 ∨ c = cols - 1 then 3 else 4) ∧
    (∀ q : ℕ, (∃ t, t < (rectangular_neighbors_from rows cols).2 (r * cols + c) ∧
        (rectangular_neighbors_from rows cols).1 (r * cols + c) t = (q : ℤ)) ↔
      (∃ r' c', r' < rows ∧ c' < cols ∧ q = r' * cols + c' ∧
        ((r' = r ∧ (c' + 1 = c ∨ c' = c + 1)) ∨ (c' = c ∧ (r' + 1 = r ∨ r' = r + 1))))) ∧
    (∀ t, (rectangular_neighbors_from rows cols).2 (r * cols + c) ≤ t →
      (rectangular_neighbors_from rows cols).1 (r * cols + c) t = -1) := by
  obtain ⟨hnb, hsz⟩ := rect_master rows cols hr hc r c hrr hcc
  refine ⟨?_, ?_, ?_⟩
  · rw [hsz, expectedRow_length rows cols r c hr hc hrr hcc]
  · intro q
    rw [← expectedRow_mem rows cols r c q hr hc hrr hcc, ← getD_exists_mem]
    constructor
    · rintro ⟨t, ht, hv⟩
      rw [hsz] at ht
      rw [hnb t] at hv
      exact ⟨t, ht, hv⟩
    · rintro ⟨t, ht, hv⟩
      refine ⟨t, by rw [hsz]; exact ht, by rw [hnb t]; exact hv⟩
  · intro t ht
    rw [hnb t]
    rw [hsz] at ht
    exact List.getD_eq_default _ _ ht

/-- Witness for C8 at the concrete shape 3×3 and the central pixel
`(r, c) = (1, 1)` (index 4). -/
theorem rectangular_neighbors_adjacency_witness :
    (((rectangular_neighbors_from 3 3).2 (1 * 3 + 1) =
      if ((1 : ℕ) = 0 ∨ (1 : ℕ) = 3 - 1) ∧ ((1 : ℕ) = 0 ∨ (1 : ℕ) = 3 - 1) then 2
      else if (1 : ℕ) = 0 ∨ (1 : ℕ) = 3 - 1 ∨ (1 : ℕ) = 0 ∨ (1 : ℕ) = 3 - 1 then 3 else 4) ∧
    (∀ q : ℕ, (∃ t, t < (rectangular_neighbors_from 3 3).2 (1 * 3 + 1) ∧
        (rectangular_neighbors_from 3 3).1 (1 * 3 + 1) t = (q : ℤ)) ↔
      (∃ r' c', r' < 3 ∧ c' < 3 ∧ q = r' * 3 + c' ∧
        ((r' = 1 ∧ (c' + 1 = 1 ∨ c' = 1 + 1)) ∨ (c' = 1 ∧ (r' + 1 = 1 ∨ r' = 1 + 1))))) ∧
    (∀ t, (rectangular_neighbors_from 3 3).2 (1 * 3 + 1) ≤ t →
      (rectangular_neighbors_from 3 3).1 (1 * 3 + 1) t = -1)) :=
  rectangular_neighbors_adjacency 3 3 (by norm_num) (by norm_num) 1 1 (by norm_num) (by norm_num)

end AutoArray
